import Mathlib

/-
Verification of the vision utilities of the chromakey repository: the
multimodal-mean background model (mmm.c part of utils.c), the sliding-window
density scanner and the single-pass blob finder (rollers part of utils.c).

The C code is shallowly embedded: linked lists of Cell records become Lean
lists, the blob arena with forwarding pointers becomes a list of blob records
addressed by index, and machine ints become unbounded Int/Nat (the quantities
involved stay far from the 32-bit range on the inputs considered; C's
truncating division `/` is modelled by Int.tdiv and the arithmetic right
shift `>> 1` by Int.fdiv _ 2).
-/

/-! # Multimodal mean background model (mmm)

A `Cell` is one chromatic mode: running colour sums R,G,B and a Count
(struct Cell of mmm.h; the Next pointer is the list structure). -/

structure Cell where
  R : Int
  G : Int
  B : Int
  Count : Int
deriving DecidableEq

/-- Pixel with three colour channels (struct Pixel of utils.h; unsigned
chars in C, embedded as integers). -/
structure Pixel where
  R : Int
  G : Int
  B : Int
deriving DecidableEq

/-- The match test of Ratio_Match_Pixel: within Epsilon in all three
ratiometric components, `abs(P->c - ThisCell->c / ThisCell->Count) <= Epsilon`
with C's truncating division. -/
def cellMatches (P : Pixel) (Epsilon : Int) (c : Cell) : Prop :=
  |P.R - Int.tdiv c.R c.Count| ≤ Epsilon ∧
  |P.G - Int.tdiv c.G c.Count| ≤ Epsilon ∧
  |P.B - Int.tdiv c.B c.Count| ≤ Epsilon

instance (P : Pixel) (Epsilon : Int) (c : Cell) : Decidable (cellMatches P Epsilon c) := by
  unfold cellMatches; infer_instance

/-- Assimilation of a matched pixel into a cell: the component sums grow by
the pixel's components and Count is incremented (body of the match branch of
Ratio_Match_Pixel). -/
def assimilate (c : Cell) (P : Pixel) : Cell :=
  ⟨c.R + P.R, c.G + P.G, c.B + P.B, c.Count + 1⟩

/-- Ratio_Match_Pixel(P, Cells, Epsilon): walk the cell list in order; the
first cell within Epsilon in all three ratiometric components assimilates the
pixel and is returned; otherwise NULL.  The embedding returns the matched
cell (post assimilation) together with the updated list. -/
def Ratio_Match_Pixel (P : Pixel) (Epsilon : Int) : List Cell → Option Cell × List Cell
  | [] => (none, [])
  | c :: rest =>
    if cellMatches P Epsilon c then
      (some (assimilate c P), assimilate c P :: rest)
    else
      let r := Ratio_Match_Pixel P Epsilon rest
      (r.1, c :: r.2)

/-- A brand-new cell seeded from a pixel with Count 1 (the NewCell setup in
Add_Cell, and likewise the overwrite branch writes exactly these fields). -/
def mkCell (P : Pixel) : Cell := ⟨P.R, P.G, P.B, 1⟩

/-- Add_Cell(P, Set, Cth): if the last cell of the set has Count >= Cth a new
cell seeded with P is appended, otherwise the last cell's data is overwritten
with P and its Count reset to 1.  (C walks to Last_Cell(Set); an empty set
would dereference NULL, the embedding returns [] there.) -/
def Add_Cell (P : Pixel) (Cth : Int) : List Cell → List Cell
  | [] => []
  | [c] => if Cth ≤ c.Count then [c, mkCell P] else [mkCell P]
  | c :: c' :: rest => c :: Add_Cell P Cth (c' :: rest)

/-- The halving of Decimate_BGM: `>>= 1` on sums and count (arithmetic right
shift, i.e. floor division by 2). -/
def halveCell (c : Cell) : Cell :=
  ⟨Int.fdiv c.R 2, Int.fdiv c.G 2, Int.fdiv c.B 2, Int.fdiv c.Count 2⟩

/-- First phase of the Decimate_BGM loop body on one cell: halve it when its
Count is at least Cth, otherwise leave it alone. -/
def declCell (Cth : Int) (c : Cell) : Cell :=
  if Cth ≤ c.Count then halveCell c else c

/-- The Decimate_BGM loop over one slot's cell list.  `keptAny` tracks
whether some earlier cell of this slot was kept: in C the eviction guard is
`ThisCell->Count < Cth && (ThisCell->Next != NULL || ThisCell != BGM[I])`,
and `ThisCell == BGM[I]` holds exactly when every earlier cell was spliced
out (BGM[I] is advanced by each head splice).  Returns the surviving list
and the number of cells freed. -/
def decimateCells (Cth : Int) : Bool → List Cell → List Cell × Nat
  | _, [] => ([], 0)
  | keptAny, c :: rest =>
    let c' := declCell Cth c
    if c'.Count < Cth ∧ (rest ≠ [] ∨ keptAny = true) then
      let r := decimateCells Cth keptAny rest
      (r.1, r.2 + 1)
    else
      let r := decimateCells Cth true rest
      (c' :: r.1, r.2)

/-- Decimate_BGM(BGM, Cth, NumSets): decimate every slot, returning the new
model and the total number of freed cells. -/
def Decimate_BGM (Cth : Int) (BGM : List (List Cell)) : List (List Cell) × Nat :=
  BGM.foldr
    (fun s acc =>
      let r := decimateCells Cth false s
      (r.1 :: acc.1, r.2 + acc.2))
    ([], 0)

/-- One pixel of Process_Frame_FG: match the pixel against its slot's set; on
no match Add_Cell it (pixel left alone); on a match black the pixel out only
when the matched cell's (incremented) Count is at least Cth. -/
def Process_Pixel_FG (Epsilon Cth : Int) (P : Pixel) (set : List Cell) : Pixel × List Cell :=
  match Ratio_Match_Pixel P Epsilon set with
  | (none, _) => (P, Add_Cell P Cth set)
  | (some c, s') => (if Cth ≤ c.Count then ⟨0, 0, 0⟩ else P, s')

/-- Process_Frame_FG(BGM, FB, Epsilon, Cth): every pixel of the frame is
processed against its own slot (the frame and the model are paired
pointwise). -/
def Process_Frame_FG (Epsilon Cth : Int) (Frame : List (Pixel × List Cell)) :
    List (Pixel × List Cell) :=
  Frame.map (fun pc => Process_Pixel_FG Epsilon Cth pc.1 pc.2)

example : Ratio_Match_Pixel ⟨10, 10, 10⟩ 0 [⟨10, 10, 10, 1⟩] =
    (some ⟨20, 20, 20, 2⟩, [⟨20, 20, 20, 2⟩]) := by decide

example : Add_Cell ⟨9, 9, 9⟩ 3 [⟨10, 10, 10, 4⟩] =
    [⟨10, 10, 10, 4⟩, ⟨9, 9, 9, 1⟩] := by decide

example : Add_Cell ⟨9, 9, 9⟩ 3 [⟨1, 1, 1, 9⟩, ⟨10, 10, 10, 2⟩] =
    [⟨1, 1, 1, 9⟩, ⟨9, 9, 9, 1⟩] := by decide

example : Decimate_BGM 3 [[⟨10, 10, 10, 4⟩, ⟨8, 8, 8, 7⟩], [⟨6, 6, 6, 2⟩]] =
    ([[⟨4, 4, 4, 3⟩], [⟨6, 6, 6, 2⟩]], 1) := by decide

/-! ## Lemmas about the cell operations -/

lemma ratio_match_of_no_match (P : Pixel) (Epsilon : Int) (s : List Cell)
    (h : ∀ c ∈ s, ¬ cellMatches P Epsilon c) :
    Ratio_Match_Pixel P Epsilon s = (none, s) := by
  induction s with
  | nil => rfl
  | cons c rest ih =>
    have hc : ¬ cellMatches P Epsilon c := h c (by simp)
    simp only [Ratio_Match_Pixel, if_neg hc]
    rw [ih (fun c' hc' => h c' (by simp [hc']))]

lemma ratio_match_of_first_match (P : Pixel) (Epsilon : Int)
    (pre : List Cell) (c : Cell) (post : List Cell)
    (hpre : ∀ c' ∈ pre, ¬ cellMatches P Epsilon c')
    (hc : cellMatches P Epsilon c) :
    Ratio_Match_Pixel P Epsilon (pre ++ c :: post) =
      (some (assimilate c P), pre ++ assimilate c P :: post) := by
  induction pre with
  | nil => simp [Ratio_Match_Pixel, if_pos hc]
  | cons c0 pre ih =>
    have hc0 : ¬ cellMatches P Epsilon c0 := hpre c0 (by simp)
    simp only [List.cons_append, Ratio_Match_Pixel, if_neg hc0, List.append_eq]
    rw [ih (fun c' hc' => hpre c' (by simp [hc']))]

lemma add_cell_cons (P : Pixel) (Cth : Int) (a : Cell) (l : List Cell) (h : l ≠ []) :
    Add_Cell P Cth (a :: l) = a :: Add_Cell P Cth l := by
  cases l with
  | nil => exact absurd rfl h
  | cons b t => rfl

lemma add_cell_append (P : Pixel) (Cth : Int) (init : List Cell) (c : Cell) :
    Add_Cell P Cth (init ++ [c]) =
      if Cth ≤ c.Count then init ++ [c, mkCell P] else init ++ [mkCell P] := by
  induction init with
  | nil => simp [Add_Cell]
  | cons c0 init ih =>
    rw [List.cons_append, add_cell_cons P Cth c0 (init ++ [c]) (by simp), ih]
    by_cases h : Cth ≤ c.Count <;> simp [h]

/-! ## Claim theorems for the background-model operations -/

/-- Claim C4: Ratio_Match_Pixel scans the set in list order and returns the
first cell passing the per-channel cube test (|P.c - sum/Count| <= epsilon,
truncating division, all three channels), assimilating the pixel into that
cell; with no passing cell it returns none and leaves every cell unchanged. -/
theorem ratio_match_first_cube_match :
    ∀ (P : Pixel) (Epsilon : Int) (s : List Cell),
      ((∀ c ∈ s, ¬ cellMatches P Epsilon c) →
        Ratio_Match_Pixel P Epsilon s = (none, s)) ∧
      (∀ (pre : List Cell) (c : Cell) (post : List Cell),
        s = pre ++ c :: post →
        (∀ c' ∈ pre, ¬ cellMatches P Epsilon c') →
        cellMatches P Epsilon c →
        Ratio_Match_Pixel P Epsilon s =
          (some (assimilate c P), pre ++ assimilate c P :: post)) := by
  intro P Epsilon s
  constructor
  · exact ratio_match_of_no_match P Epsilon s
  · intro pre c post hs hpre hc
    subst hs
    exact ratio_match_of_first_match P Epsilon pre c post hpre hc

/-- Witness for C4: a concrete no-match call and a concrete first-match call
(the exact-match cell further down the list is not chosen: first wins). -/
theorem ratio_match_first_cube_match_witness :
    Ratio_Match_Pixel ⟨5, 5, 5⟩ 0 [⟨100, 100, 100, 1⟩] = (none, [⟨100, 100, 100, 1⟩]) ∧
    Ratio_Match_Pixel ⟨5, 5, 5⟩ 2 [⟨100, 100, 100, 1⟩, ⟨6, 6, 6, 1⟩, ⟨5, 5, 5, 1⟩] =
      (some ⟨11, 11, 11, 2⟩, [⟨100, 100, 100, 1⟩, ⟨11, 11, 11, 2⟩, ⟨5, 5, 5, 1⟩]) := by
  constructor
  · exact (ratio_match_first_cube_match ⟨5, 5, 5⟩ 0 _).1 (by decide)
  · exact (ratio_match_first_cube_match ⟨5, 5, 5⟩ 2 _).2
      [⟨100, 100, 100, 1⟩] ⟨6, 6, 6, 1⟩ [⟨5, 5, 5, 1⟩] rfl (by decide) (by decide)

/-- Feeding one pixel through the match-else-add path of the frame drivers
(the background-model update of Process_Frame_FG restricted to the set). -/
def Feed_Pixel (Epsilon Cth : Int) (s : List Cell) (P : Pixel) : List Cell :=
  (Process_Pixel_FG Epsilon Cth P s).2

/-- Claim C6: Add_Cell appends a fresh Count-1 cell seeded with P exactly
when the tail cell's Count is at least Cth, and otherwise overwrites the tail
in place (same length); and the A,A,A,B scenario with Cth = 3 on a
single-cell set ends with a two-cell set whose tail is seeded with B. -/
theorem add_cell_tail_spec :
    (∀ (P : Pixel) (Cth : Int) (init : List Cell) (c : Cell),
      Add_Cell P Cth (init ++ [c]) =
        if Cth ≤ c.Count then init ++ [c, mkCell P] else init ++ [mkCell P]) ∧
    (([⟨10, 20, 30⟩, ⟨10, 20, 30⟩, ⟨10, 20, 30⟩, ⟨200, 20, 30⟩] : List Pixel).foldl
        (Feed_Pixel 4 3) [mkCell ⟨10, 20, 30⟩]).length = 2 ∧
    (([⟨10, 20, 30⟩, ⟨10, 20, 30⟩, ⟨10, 20, 30⟩, ⟨200, 20, 30⟩] : List Pixel).foldl
        (Feed_Pixel 4 3) [mkCell ⟨10, 20, 30⟩]).getLast? = some (mkCell ⟨200, 20, 30⟩) := by
  refine ⟨add_cell_append, by decide, by decide⟩

/-- The spec's description of one decimated slot, written from the spec's
words for comparison with the code's loop: halve every cell whose Count is at
least Cth; keep exactly the cells whose (possibly halved) Count is still at
least Cth; if none survives, keep just the last (halved-as-applicable) cell
of the slot, so a slot is never emptied. -/
def decimateSetSpec (Cth : Int) (s : List Cell) : List Cell :=
  let t := s.map (declCell Cth)
  let kept := t.filter (fun c => decide (Cth ≤ c.Count))
  if kept.isEmpty then t.getLast?.toList else kept

/-- The surviving cells of one slot, before the sole-survivor exception. -/
def keptCells (Cth : Int) (s : List Cell) : List Cell :=
  (s.map (declCell Cth)).filter (fun c => decide (Cth ≤ c.Count))

/-- decimateSetSpec generalized over the keptAny flag of the loop. -/
def decimateSetSpecB (Cth : Int) (b : Bool) (s : List Cell) : List Cell :=
  if (keptCells Cth s).isEmpty ∧ b = false then (s.map (declCell Cth)).getLast?.toList
  else keptCells Cth s

lemma decimateSetSpec_eq_specB (Cth : Int) (s : List Cell) :
    decimateSetSpec Cth s = decimateSetSpecB Cth false s := by
  simp [decimateSetSpec, decimateSetSpecB, keptCells]

lemma keptCells_cons (Cth : Int) (c : Cell) (rest : List Cell) :
    keptCells Cth (c :: rest) =
      if Cth ≤ (declCell Cth c).Count then declCell Cth c :: keptCells Cth rest
      else keptCells Cth rest := by
  by_cases h : Cth ≤ (declCell Cth c).Count <;> simp [keptCells, List.filter_cons, h]

lemma decimateCells_fst (Cth : Int) (b : Bool) (s : List Cell) :
    (decimateCells Cth b s).1 = decimateSetSpecB Cth b s := by
  induction s generalizing b with
  | nil => cases b <;> simp [decimateCells, decimateSetSpecB, keptCells]
  | cons c rest ih =>
    by_cases hkeep : Cth ≤ (declCell Cth c).Count
    · have hcond : ¬ ((declCell Cth c).Count < Cth ∧ (rest ≠ [] ∨ b = true)) := by
        intro h
        omega
      simp only [decimateCells, if_neg hcond]
      rw [ih true]
      have hspec : decimateSetSpecB Cth true rest = keptCells Cth rest := by
        simp [decimateSetSpecB]
      rw [hspec, decimateSetSpecB, keptCells_cons, if_pos hkeep]
      simp
    · have hlt : (declCell Cth c).Count < Cth := by omega
      by_cases hrb : rest ≠ [] ∨ b = true
      · simp only [decimateCells, if_pos (And.intro hlt hrb)]
        rw [ih b]
        simp only [decimateSetSpecB, keptCells_cons, if_neg hkeep]
        by_cases hbr : (keptCells Cth rest).isEmpty ∧ b = false
        · rw [if_pos hbr, if_pos hbr]
          have hrest : rest ≠ [] := by
            rcases hrb with h | h
            · exact h
            · exact absurd h (by simp [hbr.2])
          cases rest with
          | nil => exact absurd rfl hrest
          | cons d t => simp
        · rw [if_neg hbr, if_neg hbr]
      · push_neg at hrb
        obtain ⟨hrest, hb⟩ := hrb
        subst hrest
        have hb' : b = false := by
          cases b
          · rfl
          · exact absurd rfl hb
        subst hb'
        have hcond : ¬ ((declCell Cth c).Count < Cth ∧
            (([] : List Cell) ≠ [] ∨ false = true)) := by
          simp
        simp only [decimateCells, if_neg hcond]
        simp [decimateSetSpecB, keptCells_cons, keptCells, if_neg hkeep, decimateCells, hlt]

lemma decimateCells_card (Cth : Int) (b : Bool) (s : List Cell) :
    (decimateCells Cth b s).2 + (decimateCells Cth b s).1.length = s.length := by
  induction s generalizing b with
  | nil => simp [decimateCells]
  | cons c rest ih =>
    simp only [decimateCells]
    split
    · simp only [List.length_cons]
      have := ih b
      omega
    · simp only [List.length_cons]
      have := ih true
      omega

/-- Claim C5: Decimate_BGM halves sums and Count of every cell with
Count >= Cth, evicts every cell whose (post-halving) Count is below Cth
except a sole survivor, and returns the total number of evicted cells
(input cells minus surviving cells, slot by slot). -/
theorem decimate_bgm_spec :
    ∀ (Cth : Int) (BGM : List (List Cell)),
      Decimate_BGM Cth BGM =
        (BGM.map (decimateSetSpec Cth),
         (BGM.map (fun s => s.length - (decimateSetSpec Cth s).length)).sum) := by
  intro Cth BGM
  induction BGM with
  | nil => simp [Decimate_BGM]
  | cons s M ih =>
    simp only [Decimate_BGM, List.foldr_cons] at ih ⊢
    rw [ih]
    have h1 : (decimateCells Cth false s).1 = decimateSetSpec Cth s := by
      rw [decimateCells_fst, decimateSetSpec_eq_specB]
    have h2 : (decimateCells Cth false s).2 = s.length - (decimateSetSpec Cth s).length := by
      have := decimateCells_card Cth false s
      rw [h1] at this
      omega
    simp [h1, h2]

lemma decimateSetSpec_ne_nil (Cth : Int) (s : List Cell) (h : s ≠ []) :
    decimateSetSpec Cth s ≠ [] := by
  rw [decimateSetSpec_eq_specB]
  unfold decimateSetSpecB
  split
  · cases hs : (s.map (declCell Cth)).getLast? with
    | none =>
      rw [List.getLast?_eq_none_iff] at hs
      simp at hs
      exact absurd hs h
    | some x => simp [hs]
  · next hcond =>
    simp only [and_true] at hcond
    simpa [List.isEmpty_iff] using hcond

/-- Claim C1: starting from a model in which every slot is non-empty, any
sequence of Decimate_BGM calls (with arbitrary thresholds) leaves every
slot's cell list of length at least one. -/
theorem decimate_bgm_never_empties :
    ∀ (BGM : List (List Cell)), (∀ s ∈ BGM, s ≠ []) →
    ∀ (cths : List Int),
      ∀ s ∈ cths.foldl (fun M c => (Decimate_BGM c M).1) BGM, 1 ≤ s.length := by
  intro BGM hne cths
  induction cths generalizing BGM with
  | nil =>
    intro s hs
    have := hne s hs
    cases s with
    | nil => exact absurd rfl this
    | cons a t => simp
  | cons c cths ih =>
    intro s hs
    refine ih ((Decimate_BGM c BGM).1) ?_ s hs
    intro t ht
    rw [decimate_bgm_spec] at ht
    simp only [List.mem_map] at ht
    obtain ⟨u, hu, rfl⟩ := ht
    exact decimateSetSpec_ne_nil c u (hne u hu)

/-- Witness for C1: the empty slot never appears after two decimations of a
concrete one-slot model. -/
theorem decimate_bgm_never_empties_witness :
    ¬ (0 = (([3, 3] : List Int).foldl (fun M c => (Decimate_BGM c M).1)
        [[⟨10, 10, 10, 4⟩]]).headI.length) := by
  intro h0
  have h := decimate_bgm_never_empties [[⟨10, 10, 10, 4⟩]] (by decide) [3, 3]
      (([3, 3] : List Int).foldl (fun M c => (Decimate_BGM c M).1) [[⟨10, 10, 10, 4⟩]]).headI
      (by decide)
  omega

/-- Claim C9 counterexample: a pixel that matches a young cell (incremented
Count still below Cth) is NOT blacked out by Process_Frame_FG: with
Epsilon = 0, Cth = 3, the pixel (10,10,10) matches its slot's only cell yet
the frame keeps (10,10,10), contradicting the claim that every matched pixel
is zeroed. -/
theorem process_fg_match_without_blackout :
    Process_Frame_FG 0 3 [(⟨10, 10, 10⟩, [⟨10, 10, 10, 1⟩])] =
      [(⟨10, 10, 10⟩, [⟨20, 20, 20, 2⟩])] ∧
    (Ratio_Match_Pixel ⟨10, 10, 10⟩ 0 [⟨10, 10, 10, 1⟩]).1 ≠ none ∧
    (⟨10, 10, 10⟩ : Pixel) ≠ (⟨0, 0, 0⟩ : Pixel) := by
  refine ⟨by decide, by decide, by decide⟩

/-- Claim C9 (amended): a pixel is zeroed exactly when it matches a cell and
the matched cell's incremented Count is at least Cth; a match with Count
still below Cth leaves the pixel bytes unchanged; with no match the pixel is
unchanged and Add_Cell is applied to the slot's set. -/
theorem process_frame_fg_blackout_amended :
    ∀ (Epsilon Cth : Int) (P : Pixel) (s : List Cell),
      ((∀ c ∈ s, ¬ cellMatches P Epsilon c) →
        Process_Pixel_FG Epsilon Cth P s = (P, Add_Cell P Cth s)) ∧
      (∀ (pre : List Cell) (c : Cell) (post : List Cell),
        s = pre ++ c :: post →
        (∀ c' ∈ pre, ¬ cellMatches P Epsilon c') →
        cellMatches P Epsilon c →
        Process_Pixel_FG Epsilon Cth P s =
          ((if Cth ≤ (assimilate c P).Count then (⟨0, 0, 0⟩ : Pixel) else P),
            pre ++ assimilate c P :: post)) ∧
      (∀ (Frame : List (Pixel × List Cell)) (i : Nat),
        (Process_Frame_FG Epsilon Cth Frame)[i]? =
          (Frame[i]?).map (fun pc => Process_Pixel_FG Epsilon Cth pc.1 pc.2)) := by
  intro Epsilon Cth P s
  refine ⟨?_, ?_, ?_⟩
  · intro h
    simp [Process_Pixel_FG, ratio_match_of_no_match P Epsilon s h]
  · intro pre c post hs hpre hc
    subst hs
    simp [Process_Pixel_FG, ratio_match_of_first_match P Epsilon pre c post hpre hc]
  · intro Frame i
    simp [Process_Frame_FG]

/-- Witness for the amended C9: a no-match pixel is left alone and added, a
mature match is blacked out. -/
theorem process_frame_fg_blackout_amended_witness :
    Process_Pixel_FG 0 3 ⟨9, 9, 9⟩ [⟨5, 5, 5, 3⟩] =
      (⟨9, 9, 9⟩, [⟨5, 5, 5, 3⟩, ⟨9, 9, 9, 1⟩]) ∧
    Process_Pixel_FG 0 3 ⟨10, 10, 10⟩ [⟨20, 20, 20, 2⟩] =
      (⟨0, 0, 0⟩, [⟨30, 30, 30, 3⟩]) := by
  constructor
  · have h := (process_frame_fg_blackout_amended 0 3 ⟨9, 9, 9⟩ [⟨5, 5, 5, 3⟩]).1 (by decide)
    exact h.trans (by decide)
  · have h := (process_frame_fg_blackout_amended 0 3 ⟨10, 10, 10⟩ [⟨20, 20, 20, 2⟩]).2.1
      [] ⟨20, 20, 20, 2⟩ [] rfl (by decide) (by decide)
    exact h.trans (by decide)

/-! # Density scanner (rollers)

Horizontal_Image_Density scans the frame in raster order keeping a running
Sum and a bit wheel of the last WheelSize non-black tests; at the end of each
row (index I with I mod Width = Width - 1) the wheel is drained for the last
WheelOffset outputs and Sum and wheel are cleared before the next row. -/

/-- A pixel is non-black when some channel is non-zero:
`(Frm[3*I] | Frm[3*I+1] | Frm[3*I+2]) != 0` on unsigned bytes. -/
def Nonblack (P : Pixel) : Prop := ¬ (P.R = 0 ∧ P.G = 0 ∧ P.B = 0)

instance (P : Pixel) : Decidable (Nonblack P) := by
  unfold Nonblack; infer_instance

/-- Pointwise update of a caller-owned density map. -/
def updMap (m : Nat → Int) (i : Nat) (v : Int) : Nat → Int :=
  fun j => if j = i then v else m j

/-- One wheel step: `Sum -= Wheel & 1; Wheel >>= 1;` then on a non-black
pixel `Sum += 1; Wheel |= Edge;`. -/
def hidShift (Edge : Nat) (nb : Bool) (sw : Int × Nat) : Int × Nat :=
  let Sum := sw.1 - (sw.2 % 2 : Nat)
  let Wheel := sw.2 / 2
  if nb then (Sum + 1, Wheel ||| Edge) else (Sum, Wheel)

/-- One iteration of the end-of-row drain loop
(`for (J = 1; J <= WheelOff; J++)`): shift without reloading and write the
diminishing Sum at `I - WheelOff + J`. -/
def hidDrain (I WheelOff : Nat) (st : (Int × Nat) × (Nat → Int)) (J : Nat) :
    (Int × Nat) × (Nat → Int) :=
  let Sum := st.1.1 - (st.1.2 % 2 : Nat)
  let Wheel := st.1.2 / 2
  ((Sum, Wheel), updMap st.2 (I - WheelOff + J) Sum)

/-- The body of Horizontal_Image_Density for frame index I: wheel step, the
lagged map write once fully into the row, and at the last column the drain
followed by the clearing of Sum and wheel. -/
def hidMain (Frm : Nat → Pixel) (Width WheelSize : Nat)
    (st : (Int × Nat) × (Nat → Int)) (I : Nat) : (Int × Nat) × (Nat → Int) :=
  let Edge := 2 ^ (WheelSize - 1)
  let WheelOff := WheelSize / 2
  let sw := hidShift Edge (decide (Nonblack (Frm I))) st.1
  let dm := if WheelOff ≤ I % Width then updMap st.2 (I - WheelOff) sw.1 else st.2
  if I % Width = Width - 1 then
    (((0 : Int), (0 : Nat)), ((List.range' 1 WheelOff).foldl (hidDrain I WheelOff) (sw, dm)).2)
  else (sw, dm)

/-- Horizontal_Image_Density(FB, DensityMap, WheelSize): fold the body over
all frame indices.  DensityMap0 is the caller's (preallocated) map; positions
the routine never writes keep their incoming values. -/
def Horizontal_Image_Density (Frm : Nat → Pixel) (Width Height WheelSize : Nat)
    (DensityMap0 : Nat → Int) : Nat → Int :=
  ((List.range (Width * Height)).foldl (hidMain Frm Width WheelSize) (((0 : Int), (0 : Nat)),
    DensityMap0)).2

/-- The value Horizontal_Image_Density leaves at offset p of a fully
non-black row: ramp `p + WheelSize/2 + 1` capped at WheelSize while the
window still overlaps the row start, then the drain ramp
`(Width-1-p) + (WheelSize - WheelSize/2)` at the row's end. -/
def hidRowVal (WheelSize Width p : Nat) : Int :=
  if p + WheelSize / 2 < Width then ((min (p + WheelSize / 2 + 1) WheelSize : Nat) : Int)
  else (((Width - 1 - p) + (WheelSize - WheelSize / 2) : Nat) : Int)

example : (Horizontal_Image_Density (fun _ => ⟨1, 1, 1⟩) 6 1 4 (fun _ => 0)) 0 = 3 ∧
    (Horizontal_Image_Density (fun _ => ⟨1, 1, 1⟩) 6 1 4 (fun _ => 0)) 1 = 4 ∧
    (Horizontal_Image_Density (fun _ => ⟨1, 1, 1⟩) 6 1 4 (fun _ => 0)) 2 = 4 ∧
    (Horizontal_Image_Density (fun _ => ⟨1, 1, 1⟩) 6 1 4 (fun _ => 0)) 3 = 4 ∧
    (Horizontal_Image_Density (fun _ => ⟨1, 1, 1⟩) 6 1 4 (fun _ => 0)) 4 = 3 ∧
    (Horizontal_Image_Density (fun _ => ⟨1, 1, 1⟩) 6 1 4 (fun _ => 0)) 5 = 2 := by
  decide

/-! ## Wheel arithmetic -/

lemma two_pow_lor_of_lt {a b : Nat} (h : b < 2 ^ a) : b ||| 2 ^ a = 2 ^ a + b := by
  apply Nat.eq_of_testBit_eq
  intro i
  have hmul : 2 ^ a + b = 2 ^ a * 1 + b := by ring
  rw [Nat.testBit_or, hmul, Nat.testBit_mul_pow_two_add 1 h i]
  rcases Nat.lt_trichotomy i a with hia | hia | hia
  · rw [if_pos hia, Nat.testBit_two_pow_of_ne (Nat.ne_of_gt hia)]
    simp
  · subst hia
    rw [if_neg (lt_irrefl i), Nat.testBit_two_pow_self]
    simp
  · rw [if_neg (by omega), Nat.testBit_two_pow_of_ne (by omega)]
    have hb : b < 2 ^ i := lt_of_lt_of_le h (Nat.pow_le_pow_right (by norm_num) (by omega))
    rw [Nat.testBit_lt_two_pow hb]
    have h1 : (1 : Nat).testBit (i - a) = false := by
      cases hh : (1 : Nat).testBit (i - a) with
      | false => rfl
      | true => exact absurd (Nat.testBit_one_eq_true_iff_self_eq_zero.mp hh) (by omega)
    rw [h1]
    simp

/-- The wheel's contents after m consecutive non-black steps (m at most
WheelSize): the top m bits of a WheelSize-bit register. -/
def wheelFull (S m : Nat) : Nat := 2 ^ S - 2 ^ (S - m)

lemma wheelFull_zero (S : Nat) : wheelFull S 0 = 0 := by
  simp [wheelFull]

lemma wheelFull_mod_two_of_lt (S m : Nat) (hS : 0 < S) (hm : m < S) :
    wheelFull S m % 2 = 0 := by
  unfold wheelFull
  have h1 : 2 ^ S = 2 * 2 ^ (S - 1) := by
    rw [← pow_succ']
    congr 1
    omega
  have h2 : 2 ^ (S - m) = 2 * 2 ^ (S - m - 1) := by
    rw [← pow_succ']
    congr 1
    omega
  omega

lemma wheelFull_top_mod_two (S : Nat) (hS : 0 < S) : wheelFull S S % 2 = 1 := by
  unfold wheelFull
  have h1 : 2 ^ S = 2 * 2 ^ (S - 1) := by
    rw [← pow_succ']
    congr 1
    omega
  have h3 : 0 < 2 ^ (S - 1) := Nat.pos_pow_of_pos _ (by norm_num)
  simp only [Nat.sub_self, pow_zero]
  omega

lemma hidShift_allon (S k : Nat) (hS : 0 < S) :
    hidShift (2 ^ (S - 1)) true (((min k S : Nat) : Int), wheelFull S (min k S)) =
      (((min (k + 1) S : Nat) : Int), wheelFull S (min (k + 1) S)) := by
  unfold hidShift
  rw [if_pos rfl]
  by_cases hk : k < S
  · have hmin1 : min k S = k := by omega
    have hmin2 : min (k + 1) S = k + 1 := by omega
    rw [hmin1, hmin2, Prod.mk.injEq]
    refine ⟨?_, ?_⟩
    · rw [wheelFull_mod_two_of_lt S k hS hk]
      push_cast
      ring
    · have hdiv : wheelFull S k / 2 = 2 ^ (S - 1) - 2 ^ (S - 1 - k) := by
        unfold wheelFull
        have h1 : 2 ^ S = 2 * 2 ^ (S - 1) := by
          rw [← pow_succ']
          congr 1
          omega
        have h2 : 2 ^ (S - k) = 2 * 2 ^ (S - 1 - k) := by
          rw [← pow_succ']
          congr 1
          omega
        omega
      rw [hdiv, two_pow_lor_of_lt]
      · unfold wheelFull
        have h1 : 2 ^ S = 2 * 2 ^ (S - 1) := by
          rw [← pow_succ']
          congr 1
          omega
        have h2 : (0 : Nat) < 2 ^ (S - 1 - k) := Nat.pos_pow_of_pos _ (by norm_num)
        have h3 : S - (k + 1) = S - 1 - k := by omega
        rw [h3]
        have h4 : 2 ^ (S - 1 - k) ≤ 2 ^ (S - 1) :=
          Nat.pow_le_pow_right (by norm_num) (by omega)
        omega
      · have h2 : (0 : Nat) < 2 ^ (S - 1 - k) := Nat.pos_pow_of_pos _ (by norm_num)
        have h3 : (0 : Nat) < 2 ^ (S - 1) := Nat.pos_pow_of_pos _ (by norm_num)
        omega
  · have hmin1 : min k S = S := by omega
    have hmin2 : min (k + 1) S = S := by omega
    rw [hmin1, hmin2, Prod.mk.injEq]
    refine ⟨?_, ?_⟩
    · rw [wheelFull_top_mod_two S hS]
      push_cast
      ring
    · have hdiv : wheelFull S S / 2 = 2 ^ (S - 1) - 1 := by
        unfold wheelFull
        have h1 : 2 ^ S = 2 * 2 ^ (S - 1) := by
          rw [← pow_succ']
          congr 1
          omega
        simp only [Nat.sub_self, pow_zero]
        omega
      rw [hdiv, two_pow_lor_of_lt]
      · unfold wheelFull
        have h1 : 2 ^ S = 2 * 2 ^ (S - 1) := by
          rw [← pow_succ']
          congr 1
          omega
        simp only [Nat.sub_self, pow_zero]
        omega
      · have h3 : 0 < 2 ^ (S - 1) := Nat.pos_pow_of_pos _ (by norm_num)
        omega

lemma row_mod (y W x : Nat) (hx : x < W) : (y * W + x) % W = x := by
  rw [Nat.add_comm, Nat.add_mul_mod_self_right]
  exact Nat.mod_eq_of_lt hx

lemma hidMain_mid_step (Frm : Nat → Pixel) (W S y x : Nat) (sw : Int × Nat)
    (dm' : Nat → Int) (hx : x < W - 1) :
    hidMain Frm W S (sw, dm') (y * W + x) =
      (hidShift (2 ^ (S - 1)) (decide (Nonblack (Frm (y * W + x)))) sw,
       if S / 2 ≤ x then
         updMap dm' (y * W + x - S / 2)
           (hidShift (2 ^ (S - 1)) (decide (Nonblack (Frm (y * W + x)))) sw).1
       else dm') := by
  have hxW : x < W := by omega
  have hmod : (y * W + x) % W = x := row_mod y W x hxW
  simp only [hidMain, hmod]
  rw [if_neg (by omega : ¬ x = W - 1)]

lemma hid_row_scan (Frm : Nat → Pixel) (W S y : Nat) (dm : Nat → Int)
    (hS : 0 < S) (hSW : S < W)
    (hnb : ∀ x, x < W → Nonblack (Frm (y * W + x))) :
    ∀ k, k ≤ W - 1 →
    (List.range' (y * W) k).foldl (hidMain Frm W S) (((0 : Int), (0 : Nat)), dm) =
      ((((min k S : Nat) : Int), wheelFull S (min k S)),
       fun j => if y * W ≤ j ∧ j + S / 2 < y * W + k
         then ((min (j - y * W + S / 2 + 1) S : Nat) : Int) else dm j) := by
  intro k
  induction k with
  | zero =>
    intro _
    simp only [List.range', List.foldl_nil]
    rw [Prod.mk.injEq]
    refine ⟨by simp [wheelFull_zero], ?_⟩
    funext j
    rw [if_neg (by omega)]
  | succ k ih =>
    intro hk1
    have hk : k ≤ W - 1 := by omega
    have hkW : k < W - 1 := by omega
    rw [List.range'_concat, List.foldl_append, ih hk]
    simp only [List.foldl_cons, List.foldl_nil, one_mul]
    rw [hidMain_mid_step Frm W S y k _ _ hkW]
    rw [decide_eq_true (hnb k (by omega))]
    rw [hidShift_allon S k hS]
    rw [Prod.mk.injEq]
    refine ⟨rfl, ?_⟩
    by_cases hoff : S / 2 ≤ k
    · rw [if_pos hoff]
      funext j
      unfold updMap
      beta_reduce
      by_cases hj : j = y * W + k - S / 2
      · rw [if_pos hj]
        have hcond : y * W ≤ j ∧ j + S / 2 < y * W + (k + 1) := by omega
        rw [if_pos hcond]
        omega
      · rw [if_neg hj]
        by_cases h1 : y * W ≤ j ∧ j + S / 2 < y * W + k
        · rw [if_pos h1, if_pos (by omega : y * W ≤ j ∧ j + S / 2 < y * W + (k + 1))]
        · rw [if_neg h1, if_neg (by omega : ¬ (y * W ≤ j ∧ j + S / 2 < y * W + (k + 1)))]
    · rw [if_neg hoff]
      funext j
      beta_reduce
      by_cases h1 : y * W ≤ j ∧ j + S / 2 < y * W + k
      · rw [if_pos h1, if_pos (by omega : y * W ≤ j ∧ j + S / 2 < y * W + (k + 1))]
      · rw [if_neg h1, if_neg (by omega : ¬ (y * W ≤ j ∧ j + S / 2 < y * W + (k + 1)))]

lemma hid_drain_scan (W S y : Nat) (hS : 0 < S) (dmw : Nat → Int) :
    ∀ J, J ≤ S / 2 →
    (List.range' 1 J).foldl (hidDrain (y * W + (W - 1)) (S / 2))
        ((((S : Nat) : Int), wheelFull S S), dmw) =
      ((((S - J : Nat) : Int), 2 ^ (S - J) - 1),
       fun j => if y * W + (W - 1) - S / 2 + 1 ≤ j ∧ j ≤ y * W + (W - 1) - S / 2 + J
         then ((S - (j - (y * W + (W - 1) - S / 2)) : Nat) : Int) else dmw j) := by
  intro J
  induction J with
  | zero =>
    intro _
    simp only [List.range', List.foldl_nil]
    rw [Prod.mk.injEq]
    refine ⟨?_, ?_⟩
    · rw [Prod.mk.injEq]
      refine ⟨by simp, ?_⟩
      unfold wheelFull
      simp
    · funext j
      rw [if_neg (by omega)]
  | succ J ih =>
    intro hJ1
    have hJ : J ≤ S / 2 := by omega
    have hSJ : 1 ≤ S - J := by
      have := Nat.div_le_self S 2
      have h2 : S / 2 < S := Nat.div_lt_self hS (by norm_num)
      omega
    rw [List.range'_concat, List.foldl_append, ih hJ]
    simp only [List.foldl_cons, List.foldl_nil, one_mul]
    unfold hidDrain
    have hodd : (2 ^ (S - J) - 1) % 2 = 1 := by
      have h1 : 2 ^ (S - J) = 2 * 2 ^ (S - J - 1) := by
        rw [← pow_succ']
        congr 1
        omega
      have h2 : (0 : Nat) < 2 ^ (S - J - 1) := Nat.pos_pow_of_pos _ (by norm_num)
      omega
    have hhalf : (2 ^ (S - J) - 1) / 2 = 2 ^ (S - (J + 1)) - 1 := by
      have h1 : 2 ^ (S - J) = 2 * 2 ^ (S - (J + 1)) := by
        rw [← pow_succ']
        congr 1
        omega
      omega
    rw [Prod.mk.injEq]
    refine ⟨?_, ?_⟩
    · rw [Prod.mk.injEq]
      refine ⟨?_, ?_⟩
      · simp only [hodd]
        push_cast
        omega
      · simp only [hhalf]
    · funext j
      unfold updMap
      dsimp only
      by_cases hj : j = y * W + (W - 1) - S / 2 + (1 + J)
      · rw [if_pos hj]
        rw [if_pos (by omega : y * W + (W - 1) - S / 2 + 1 ≤ j ∧
              j ≤ y * W + (W - 1) - S / 2 + (J + 1))]
        simp only [hodd]
        push_cast
        omega
      · rw [if_neg hj]
        by_cases h1 : y * W + (W - 1) - S / 2 + 1 ≤ j ∧ j ≤ y * W + (W - 1) - S / 2 + J
        · rw [if_pos h1, if_pos (by omega : y * W + (W - 1) - S / 2 + 1 ≤ j ∧
              j ≤ y * W + (W - 1) - S / 2 + (J + 1))]
        · rw [if_neg h1, if_neg (by omega : ¬ (y * W + (W - 1) - S / 2 + 1 ≤ j ∧
              j ≤ y * W + (W - 1) - S / 2 + (J + 1)))]

lemma hid_row_complete (Frm : Nat → Pixel) (W S y : Nat) (dm : Nat → Int)
    (hS : 0 < S) (hSW : S < W)
    (hnb : ∀ x, x < W → Nonblack (Frm (y * W + x))) :
    (List.range' (y * W) W).foldl (hidMain Frm W S) (((0 : Int), (0 : Nat)), dm) =
      (((0 : Int), (0 : Nat)),
       fun j => if y * W ≤ j ∧ j < y * W + W then hidRowVal S W (j - y * W) else dm j) := by
  obtain ⟨n, rfl⟩ : ∃ n, W = n + 1 := ⟨W - 1, by omega⟩
  have hSn : S ≤ n := by omega
  rw [List.range'_concat, List.foldl_append,
    hid_row_scan Frm (n + 1) S y dm hS hSW hnb n (by omega)]
  simp only [List.foldl_cons, List.foldl_nil, one_mul]
  have hmin1 : min n S = S := by omega
  have hmin2 : min (n + 1) S = S := by omega
  have hstep := hidShift_allon S n hS
  rw [hmin1, hmin2] at hstep
  have hmod : (y * (n + 1) + n) % (n + 1) = n := row_mod y (n + 1) n (by omega)
  unfold hidMain
  simp only [decide_eq_true (hnb n (by omega)), hmin1, hstep, hmod, Nat.add_sub_cancel]
  rw [if_pos True.intro, if_pos (show S / 2 ≤ n by omega)]
  have hdrain := hid_drain_scan (n + 1) S y hS
      (updMap (fun j =>
          if y * (n + 1) ≤ j ∧ j + S / 2 < y * (n + 1) + n
          then ((min (j - y * (n + 1) + S / 2 + 1) S : Nat) : Int) else dm j)
        (y * (n + 1) + n - S / 2) ((S : Nat) : Int)) (S / 2) (le_refl _)
  simp only [Nat.add_sub_cancel] at hdrain
  rw [hdrain]
  rw [Prod.mk.injEq]
  refine ⟨rfl, ?_⟩
  funext j
  dsimp only
  unfold updMap
  dsimp only
  by_cases hrow : y * (n + 1) ≤ j ∧ j < y * (n + 1) + (n + 1)
  · rw [if_pos hrow]
    set p := j - y * (n + 1) with hp
    have hj : j = y * (n + 1) + p := by omega
    by_cases hdr : p + S / 2 ≥ n + 1
    · -- drain region
      rw [if_pos (by omega : y * (n + 1) + n - S / 2 + 1 ≤ j ∧
            j ≤ y * (n + 1) + n - S / 2 + S / 2)]
      unfold hidRowVal
      rw [if_neg (by omega : ¬ (p + S / 2 < n + 1))]
      have hsub : j - (y * (n + 1) + n - S / 2) = p + S / 2 - n := by omega
      rw [hsub]
      have hd2 : S / 2 < S := Nat.div_lt_self hS (by norm_num)
      omega
    · rw [if_neg (by omega : ¬ (y * (n + 1) + n - S / 2 + 1 ≤ j ∧
            j ≤ y * (n + 1) + n - S / 2 + S / 2))]
      by_cases hmid : j = y * (n + 1) + n - S / 2
      · rw [if_pos hmid]
        unfold hidRowVal
        rw [if_pos (by omega : p + S / 2 < n + 1)]
        omega
      · rw [if_neg hmid]
        rw [if_pos (by omega : y * (n + 1) ≤ j ∧ j + S / 2 < y * (n + 1) + n)]
        unfold hidRowVal
        rw [if_pos (by omega : p + S / 2 < n + 1)]
  · rw [if_neg hrow]
    rw [if_neg (by omega : ¬ (y * (n + 1) + n - S / 2 + 1 ≤ j ∧
          j ≤ y * (n + 1) + n - S / 2 + S / 2))]
    rw [if_neg (by omega : ¬ j = y * (n + 1) + n - S / 2)]
    rw [if_neg (by omega : ¬ (y * (n + 1) ≤ j ∧ j + S / 2 < y * (n + 1) + n))]

/-- One full row of the Horizontal_Image_Density scan (the indices I with
I div Width = r, in order). -/
def hidRow (Frm : Nat → Pixel) (W S : Nat) (st : (Int × Nat) × (Nat → Int)) (r : Nat) :
    (Int × Nat) × (Nat → Int) :=
  (List.range' (r * W) W).foldl (hidMain Frm W S) st

lemma hid_prefix_untouched (Frm : Nat → Pixel) (W S r : Nat) (st0 : Int × Nat)
    (dm : Nat → Int) :
    ∀ k, k ≤ W - 1 →
    ∃ sw' dm', (List.range' (r * W) k).foldl (hidMain Frm W S) (st0, dm) = (sw', dm') ∧
      ∀ j, (j < r * W ∨ r * W + W ≤ j) → dm' j = dm j := by
  intro k
  induction k with
  | zero =>
    intro _
    exact ⟨st0, dm, rfl, fun _ _ => rfl⟩
  | succ k ih =>
    intro hk1
    obtain ⟨sw', dm', heq, hout⟩ := ih (by omega)
    rw [List.range'_concat, List.foldl_append, heq]
    simp only [List.foldl_cons, List.foldl_nil, one_mul]
    rw [hidMain_mid_step Frm W S r k sw' dm' (by omega)]
    by_cases hoff : S / 2 ≤ k
    · rw [if_pos hoff]
      refine ⟨_, _, rfl, ?_⟩
      intro j hj
      unfold updMap
      rw [if_neg (by omega : ¬ j = r * W + k - S / 2)]
      exact hout j hj
    · rw [if_neg hoff]
      exact ⟨_, _, rfl, hout⟩

lemma hid_drain_untouched (I Woff : Nat) :
    ∀ (L : List Nat) (st : (Int × Nat) × (Nat → Int)) (j : Nat),
      (∀ J ∈ L, I - Woff + J ≠ j) →
      ((L.foldl (hidDrain I Woff) st).2) j = (st.2) j := by
  intro L
  induction L with
  | nil => intro st j _; rfl
  | cons J0 L ih =>
    intro st j hj
    rw [List.foldl_cons]
    rw [ih _ j (fun J hJ => hj J (by simp [hJ]))]
    unfold hidDrain updMap
    dsimp only
    rw [if_neg (fun h => hj J0 (by simp) (by omega))]

lemma hid_row_untouched (Frm : Nat → Pixel) (W S r : Nat) (hW : 0 < W) (hSW : S < W)
    (st0 : Int × Nat) (dm : Nat → Int) :
    ∃ dm', hidRow Frm W S (st0, dm) r = (((0 : Int), (0 : Nat)), dm') ∧
      ∀ j, (j < r * W ∨ r * W + W ≤ j) → dm' j = dm j := by
  obtain ⟨n, rfl⟩ : ∃ n, W = n + 1 := ⟨W - 1, by omega⟩
  obtain ⟨sw', dm', heq, hout⟩ :=
    hid_prefix_untouched Frm (n + 1) S r st0 dm n (by omega)
  unfold hidRow
  rw [List.range'_concat, List.foldl_append, heq]
  simp only [List.foldl_cons, List.foldl_nil, one_mul]
  unfold hidMain
  have hmod : (r * (n + 1) + n) % (n + 1) = n := row_mod r (n + 1) n (by omega)
  simp only [hmod, Nat.add_sub_cancel]
  rw [if_pos True.intro]
  refine ⟨_, rfl, ?_⟩
  intro j hj
  rw [hid_drain_untouched (r * (n + 1) + n) (S / 2) _ _ j ?_]
  · by_cases hoff : S / 2 ≤ n
    · rw [if_pos hoff]
      unfold updMap
      dsimp only
      rw [if_neg (by omega : ¬ j = r * (n + 1) + n - S / 2)]
      exact hout j hj
    · rw [if_neg hoff]
      exact hout j hj
  · intro J hJ
    rw [List.mem_range'_1] at hJ
    have hS2 : S / 2 ≤ n := by
      have := Nat.div_le_self S 2
      omega
    omega

lemma hid_rows_decomp (Frm : Nat → Pixel) (W S H : Nat) (dm0 : Nat → Int) :
    Horizontal_Image_Density Frm W H S dm0 =
      ((List.range H).foldl (hidRow Frm W S) (((0 : Int), (0 : Nat)), dm0)).2 := by
  unfold Horizontal_Image_Density
  congr 1
  induction H with
  | zero => simp
  | succ H ih =>
    rw [show W * (H + 1) = W * H + W by ring, List.range_add, List.foldl_append, ih,
        List.range_succ, List.foldl_append]
    simp only [List.foldl_cons, List.foldl_nil]
    unfold hidRow
    congr 1
    rw [← List.range'_eq_map_range]
    congr 1
    ring

lemma hid_rows_state (Frm : Nat → Pixel) (W S : Nat) (hW : 0 < W) (hSW : S < W) :
    ∀ (rows : List Nat) (dm : Nat → Int),
    ∃ dm', rows.foldl (hidRow Frm W S) (((0 : Int), (0 : Nat)), dm) =
      (((0 : Int), (0 : Nat)), dm') := by
  intro rows
  induction rows with
  | nil => exact fun dm => ⟨dm, rfl⟩
  | cons r rows ih =>
    intro dm
    obtain ⟨dmr, heq, _⟩ := hid_row_untouched Frm W S r hW hSW ((0 : Int), (0 : Nat)) dm
    rw [List.foldl_cons, heq]
    exact ih dmr

lemma hid_rows_preserve (Frm : Nat → Pixel) (W S : Nat) (hW : 0 < W) (hSW : S < W)
    (j : Nat) :
    ∀ (rows : List Nat) (dm : Nat → Int),
      (∀ r ∈ rows, j < r * W) →
      ((rows.foldl (hidRow Frm W S) (((0 : Int), (0 : Nat)), dm)).2) j = dm j := by
  intro rows
  induction rows with
  | nil => intro dm _; rfl
  | cons r rows ih =>
    intro dm hrows
    obtain ⟨dmr, heq, hout⟩ := hid_row_untouched Frm W S r hW hSW ((0 : Int), (0 : Nat)) dm
    rw [List.foldl_cons, heq, ih dmr (fun r' hr' => hrows r' (by simp [hr']))]
    exact hout j (Or.inl (hrows r (by simp)))

/-- Claim C8 counterexample: the all-non-black single row of length 6 with
WheelSize 4 produces the density row [3,4,4,4,3,2]: the edges do not form a
symmetric triangular ramp from 1 up to WheelSize and back down to 1 (the
first position holds 3, not 1, and differs from the last position's 2). -/
theorem horizontal_density_edge_ramp_counterexample :
    Horizontal_Image_Density (fun _ => ⟨1, 1, 1⟩) 6 1 4 (fun _ => 0) 0 = 3 ∧
    Horizontal_Image_Density (fun _ => ⟨1, 1, 1⟩) 6 1 4 (fun _ => 0) 5 = 2 ∧
    Horizontal_Image_Density (fun _ => ⟨1, 1, 1⟩) 6 1 4 (fun _ => 0) 0 ≠ 1 ∧
    Horizontal_Image_Density (fun _ => ⟨1, 1, 1⟩) 6 1 4 (fun _ => 0) 0 ≠
      Horizontal_Image_Density (fun _ => ⟨1, 1, 1⟩) 6 1 4 (fun _ => 0) 5 := by
  refine ⟨by decide, by decide, by decide, by decide⟩

/-- Claim C8 (amended): on any frame row that is entirely non-black, with
even WheelSize S, 0 < S < Width, Horizontal_Image_Density writes S at every
interior position [S/2, Width - S/2 - 1]; the left edge positions p < S/2
ramp up as p + S/2 + 1 (reaching S), and the right edge positions
p >= Width - S/2 ramp down as (Width - 1 - p) + S/2 (from S - 1 down to
S/2); the window never wraps into the next row (Sum and wheel are drained
and reset at each row's end, so the profile of a row does not depend on any
other row's pixels). -/
theorem horizontal_density_profile_amended :
    ∀ (Frm : Nat → Pixel) (Width Height WheelSize : Nat) (DM0 : Nat → Int) (Y : Nat),
      0 < WheelSize → WheelSize % 2 = 0 → WheelSize < Width → Y < Height →
      (∀ x, x < Width → Nonblack (Frm (Y * Width + x))) →
      ∀ p, p < Width →
        (Horizontal_Image_Density Frm Width Height WheelSize DM0 (Y * Width + p) =
          hidRowVal WheelSize Width p) ∧
        (WheelSize / 2 ≤ p → p + WheelSize / 2 + 1 ≤ Width →
          Horizontal_Image_Density Frm Width Height WheelSize DM0 (Y * Width + p) =
            (WheelSize : Int)) ∧
        (p < WheelSize / 2 →
          Horizontal_Image_Density Frm Width Height WheelSize DM0 (Y * Width + p) =
            ((p + WheelSize / 2 + 1 : Nat) : Int)) ∧
        (Width ≤ p + WheelSize / 2 →
          Horizontal_Image_Density Frm Width Height WheelSize DM0 (Y * Width + p) =
            ((Width - 1 - p + WheelSize / 2 : Nat) : Int)) := by
  intro Frm W H S DM0 Y hS heven hSW hYH hnb p hp
  have hW : 0 < W := by omega
  have hmain : Horizontal_Image_Density Frm W H S DM0 (Y * W + p) = hidRowVal S W p := by
    rw [hid_rows_decomp]
    have hsplit : List.range H = List.range' 0 Y ++ (Y :: List.range' (Y + 1) (H - Y - 1)) := by
      rw [List.range_eq_range']
      have h1 : List.range' 0 Y ++ List.range' (0 + Y) (H - Y) =
          List.range' 0 (H - Y + Y) := List.range'_append_1 0 Y (H - Y)
      rw [show H - Y + Y = H by omega] at h1
      rw [← h1]
      congr 1
      rw [show H - Y = (H - Y - 1) + 1 by omega, List.range'_succ]
      simp
    rw [hsplit, List.foldl_append]
    obtain ⟨dm1, heq1⟩ := hid_rows_state Frm W S hW hSW (List.range' 0 Y) DM0
    rw [heq1, List.foldl_cons]
    have hrowY : hidRow Frm W S (((0 : Int), (0 : Nat)), dm1) Y =
        (((0 : Int), (0 : Nat)),
         fun j => if Y * W ≤ j ∧ j < Y * W + W then hidRowVal S W (j - Y * W) else dm1 j) :=
      hid_row_complete Frm W S Y dm1 hS hSW hnb
    rw [hrowY]
    rw [hid_rows_preserve Frm W S hW hSW (Y * W + p) _ _ ?_]
    · rw [if_pos (by omega : Y * W ≤ Y * W + p ∧ Y * W + p < Y * W + W)]
      rw [show Y * W + p - Y * W = p by omega]
    · intro r hr
      rw [List.mem_range'_1] at hr
      have h2 : (Y + 1) * W ≤ r * W := Nat.mul_le_mul_right W (by omega)
      have h3 : (Y + 1) * W = Y * W + W := by ring
      omega
  have hd2 : S / 2 + S / 2 = S := by omega
  refine ⟨hmain, ?_, ?_, ?_⟩
  · intro h1 h2
    rw [hmain]
    unfold hidRowVal
    rw [if_pos (by omega : p + S / 2 < W)]
    omega
  · intro h1
    rw [hmain]
    unfold hidRowVal
    rw [if_pos (by omega : p + S / 2 < W)]
    omega
  · intro h1
    rw [hmain]
    unfold hidRowVal
    rw [if_neg (by omega : ¬ (p + S / 2 < W))]
    omega

/-- Witness for the amended C8: the interior position 3 of the concrete
6-pixel non-black row holds WheelSize = 4 and the last position holds 2. -/
theorem horizontal_density_profile_amended_witness :
    Horizontal_Image_Density (fun _ => ⟨1, 1, 1⟩) 6 1 4 (fun _ => 0) 3 = 4 ∧
    Horizontal_Image_Density (fun _ => ⟨1, 1, 1⟩) 6 1 4 (fun _ => 0) 5 = 2 := by
  have hnb6 : ∀ x : Nat, x < 6 → Nonblack ((fun _ => (⟨1, 1, 1⟩ : Pixel)) (0 * 6 + x)) := by
    intro x _
    show Nonblack (⟨1, 1, 1⟩ : Pixel)
    decide
  constructor
  · have h := (horizontal_density_profile_amended (fun _ => ⟨1, 1, 1⟩) 6 1 4 (fun _ => 0) 0
      (by norm_num) (by norm_num) (by norm_num) (by norm_num)
      hnb6 3 (by norm_num)).2.1 (by norm_num) (by norm_num)
    simpa using h
  · have h := (horizontal_density_profile_amended (fun _ => ⟨1, 1, 1⟩) 6 1 4 (fun _ => 0) 0
      (by norm_num) (by norm_num) (by norm_num) (by norm_num)
      hnb6 5 (by norm_num)).2.2.2 (by norm_num)
    simpa using h

/-! # Blob finding (rollers)

Blob objects live in an arena (the C heap): a list of records addressed by
index, standing in for pointers.  The active blob list (the Next chain) is a
list of arena indices, newest first.  Reclaiming a blob removes it from the
active list; the arena keeps the record, which makes the use-after-free
safety condition of the C code expressible as a statement about the active
list. -/

structure BlobR where
  Xmin : Nat
  Xmax : Nat
  Ymin : Nat
  Ymax : Nat
  Xsum : Nat
  Ysum : Nat
  Count : Nat
  Xreg : Nat
  Yreg : Nat
  ID : Nat
  Expire : Int
  FP : Option Nat
deriving DecidableEq

instance : Inhabited BlobR := ⟨⟨0, 0, 0, 0, 0, 0, 0, 0, 0, 0, -1, none⟩⟩

/-- Dereference an arena index. -/
def getB (A : List BlobR) (i : Nat) : BlobR := A.getD i default

/-- The forwarding pointer of blob i. -/
def FPof (A : List BlobR) (i : Nat) : Option Nat := (getB A i).FP

/-- New_Blob(X, Y, ID): zeroed box and sums, the registration point and ID
supplied, Expire -1, no forwarding pointer. -/
def New_Blob (X Y ID : Nat) : BlobR :=
  ⟨0, 0, 0, 0, 0, 0, 0, X, Y, ID, -1, none⟩

/-- Reduce_FP: follow forwarding pointers to the vectored blob.  The C
routine recurses on the pointer chain; the embedding carries fuel, and the
chain invariants below show that fuel `A.length` always reaches a
non-forwarded blob. -/
def Reduce_FP (A : List BlobR) : Nat → Nat → Nat
  | 0, i => i
  | fuel + 1, i =>
    match FPof A i with
    | none => i
    | some j => Reduce_FP A fuel j

/-- Add_Position(ThisBlob, X, Y): extend the bounding box (or initialize it
for the first position), accumulate the centre-of-mass sums, bump Count. -/
def Add_Position (b : BlobR) (X Y : Nat) : BlobR :=
  let b :=
    if b.Count = 0 then
      { b with Xmin := X, Xmax := X, Ymin := Y, Ymax := Y }
    else
      let b := if X < b.Xmin then { b with Xmin := X } else b
      let b := if Y < b.Ymin then { b with Ymin := Y } else b
      let b := if b.Xmax < X then { b with Xmax := X } else b
      let b := if b.Ymax < Y then { b with Ymax := Y } else b
      b
  { b with Xsum := b.Xsum + X, Ysum := b.Ysum + Y, Count := b.Count + 1 }

/-- The updates Merge_Blobs applies to Blob2: bounding box union,
registration-point combination, and summed centre-of-mass accumulators.
The registration test is transcribed as written in the source, which
compares Blob1->Xreg against Blob2->Yreg in the tie-break. -/
def Merge_Vals (b1 b2 : BlobR) : BlobR :=
  let b2 := if b1.Xmin < b2.Xmin then { b2 with Xmin := b1.Xmin } else b2
  let b2 := if b1.Ymin < b2.Ymin then { b2 with Ymin := b1.Ymin } else b2
  let b2 := if b2.Xmax < b1.Xmax then { b2 with Xmax := b1.Xmax } else b2
  let b2 := if b2.Ymax < b1.Ymax then { b2 with Ymax := b1.Ymax } else b2
  let b2 := if b1.Yreg < b2.Yreg ∨ (b1.Yreg = b2.Yreg ∧ b1.Xreg < b2.Yreg) then
      { b2 with Xreg := b1.Xreg, Yreg := b1.Yreg } else b2
  { b2 with Xsum := b2.Xsum + b1.Xsum, Ysum := b2.Ysum + b1.Ysum,
            Count := b2.Count + b1.Count }

/-- Merge_Blobs(Blob1, Blob2, Expire): when the two blobs differ, Blob2
absorbs Blob1's extents and Blob1 becomes a forwarding stub with the given
expiration; merging a blob with itself does nothing. -/
def Merge_Blobs (A : List BlobR) (i1 i2 : Nat) (Expire : Int) : List BlobR :=
  if i1 = i2 then A
  else
    let A' := A.set i2 (Merge_Vals (getB A i1) (getB A i2))
    A'.set i1 { getB A' i1 with FP := some i2, Expire := Expire }

/-- Reap_Expired_Blobs(Blobs, Now): splice out of the active list every blob
whose Expire equals Now (the freed records go back to the pool). -/
def Reap_Expired_Blobs (A : List BlobR) (Now : Int) : List Nat → List Nat
  | [] => []
  | i :: rest =>
    if (getB A i).Expire = Now then Reap_Expired_Blobs A Now rest
    else i :: Reap_Expired_Blobs A Now rest

/-- Reap_FP_Blobs(Blobs): splice every forwarded blob out of the active
list. -/
def Reap_FP_Blobs (A : List BlobR) : List Nat → List Nat
  | [] => []
  | i :: rest =>
    if FPof A i ≠ none then Reap_FP_Blobs A rest
    else i :: Reap_FP_Blobs A rest

/-- Number_Blobs(Blobs): walk the active list assigning IDs 1, 2, ... to the
non-forwarded blobs. -/
def Number_Blobs (A : List BlobR) (act : List Nat) : List BlobR :=
  (act.foldl
    (fun st i =>
      if FPof st.1 i = none then (st.1.set i { getB st.1 i with ID := st.2 }, st.2 + 1)
      else st)
    (A, 1)).1

/-- The scanner state of Blob_Finder / Blob_Finder_Map: the arena, the
active blob list (newest first), the per-column blob references, the current
row blob, and (map variant only) the handle map written over the density
map.  The map variant reads each density position before overwriting it, so
the read map and the written handle map are carried separately. -/
structure BFState where
  arena : List BlobR
  act : List Nat
  cols : List (Option Nat)
  row : Option Nat
  bmap : Nat → Option Nat

/-- The first line of the scan's pixel body: if the column blob is a
forwarding pointer, reduce it to the vectored blob. -/
def BF_Reduce_Col (x : Nat) (s : BFState) : BFState :=
  match s.cols.getD x none with
  | some c =>
    if FPof s.arena c ≠ none then
      { s with cols := s.cols.set x (some (Reduce_FP s.arena s.arena.length c)) }
    else s
  | none => s

/-- The blob-worthy branch: merge / adopt / allocate, returning the updated
state and the resulting row blob. -/
def BF_Join (mapv : Bool) (y x : Nat) (s : BFState) : BFState × Nat :=
  match s.row, s.cols.getD x none with
  | some r, some c =>
    ({ s with arena := Merge_Blobs s.arena c r (if mapv then 0 else (y : Int) + 1) }, r)
  | none, some c => (s, c)
  | some r, none => (s, r)
  | none, none =>
    ({ s with arena := s.arena ++ [New_Blob x y 0], act := s.arena.length :: s.act },
     s.arena.length)

/-- After the join, the position is accumulated into the row blob and the
column reference (and, in the map variant, the handle map) updated. -/
def BF_Accum (mapv : Bool) (W y x : Nat) (sr : BFState × Nat) : BFState :=
  { sr.1 with
    arena := sr.1.arena.set sr.2 (Add_Position (getB sr.1.arena sr.2) x y),
    cols := sr.1.cols.set x (some sr.2),
    row := some sr.2,
    bmap := if mapv then (fun I => if I = y * W + x then some sr.2 else sr.1.bmap I)
            else sr.1.bmap }

/-- The unworthy branch: clear the row blob and the column reference. -/
def BF_Clear (mapv : Bool) (W y x : Nat) (s : BFState) : BFState :=
  { s with row := none, cols := s.cols.set x none,
           bmap := if mapv then (fun I => if I = y * W + x then none else s.bmap I)
                   else s.bmap }

/-- One pixel (x, y) of the scan.  mapv selects Blob_Finder_Map's behaviour:
merge expiration 0 instead of y+1, and handle-map writes. -/
def BF_Pixel (mapv : Bool) (dm : Nat → Int) (W : Nat) (Bth : Int) (y x : Nat)
    (s : BFState) : BFState :=
  let s := BF_Reduce_Col x s
  if Bth ≤ dm (y * W + x) then BF_Accum mapv W y x (BF_Join mapv y x s)
  else BF_Clear mapv W y x s

/-- One row: clear RowBlob, scan the columns, and (plain variant) reap the
blobs whose expiration matches the row just finished. -/
def BF_Row (mapv : Bool) (dm : Nat → Int) (W : Nat) (Bth : Int) (s : BFState)
    (y : Nat) : BFState :=
  let s' := (List.range W).foldl (fun s x => BF_Pixel mapv dm W Bth y x s)
    { s with row := none }
  if mapv then s' else { s' with act := Reap_Expired_Blobs s'.arena (y : Int) s'.act }

/-- The initial scanner state: no blobs, all column references cleared. -/
def BF_Init (W : Nat) : BFState :=
  ⟨[], [], List.replicate W none, none, fun _ => none⟩

/-- The full scan of either blob finder. -/
def BF_Scan (mapv : Bool) (dm : Nat → Int) (W H : Nat) (Bth : Int) : BFState :=
  (List.range H).foldl (BF_Row mapv dm W Bth) (BF_Init W)

/-- Blob_Finder(DensityMap, Width, Height, Bth): scan, reap residual
forwarding stubs, number the survivors, and return them (newest first). -/
def Blob_Finder (dm : Nat → Int) (W H : Nat) (Bth : Int) : List BlobR :=
  let s := BF_Scan false dm W H Bth
  let act := Reap_FP_Blobs s.arena s.act
  let A := Number_Blobs s.arena act
  act.map (getB A)

/-- Blob_Finder_Map(DensityMap, Width, Height, Bth): scan with handle-map
writes, number the survivors, flatten every stored handle through its
forwarding chain to the root's ID, reap the stubs, and return the survivors
together with the ID map (0 where no blob). -/
def Blob_Finder_Map (dm : Nat → Int) (W H : Nat) (Bth : Int) :
    List BlobR × (Nat → Nat) :=
  let s := BF_Scan true dm W H Bth
  let A := Number_Blobs s.arena s.act
  let bm := fun I =>
    match s.bmap I with
    | none => 0
    | some i => (getB A (Reduce_FP A A.length i)).ID
  let act := Reap_FP_Blobs A s.act
  (act.map (getB A), bm)

/-- A density map given as a row-major list (0 elsewhere). -/
def dmOf (l : List Int) : Nat → Int := fun i => l.getD i 0

example : (Blob_Finder (dmOf [1, 1, 0, 0, 1]) 5 1 1).length = 2 := by decide

example : (Blob_Finder (dmOf [5, 5, 5, 5]) 4 1 3).map
    (fun b => (b.Count, b.Xmin, b.Xmax, b.Ymin, b.Ymax)) = [(4, 0, 3, 0, 0)] := by decide

/-- The density map exercising the registration-point combination: two
blobs born in row 5 (registration points (1,5) and (3,5)) are bridged in
row 6, so Merge_Blobs runs with Blob1 registered at (3,5) and Blob2 at
(1,5). -/
def dmRegBug : Nat → Int := dmOf
  [0, 0, 0, 0, 0,  0, 0, 0, 0, 0,  0, 0, 0, 0, 0,  0, 0, 0, 0, 0,  0, 0, 0, 0, 0,
   0, 1, 0, 1, 0,
   0, 1, 1, 1, 0]

/-- Claim C3 (code bug): Merge_Blobs does not keep the lexicographically
smaller registration point.  The tie-break in the source reads
`Blob1->Xreg < Blob2->Yreg` where the comment (find upper left reg point)
and the spec require `Blob1->Xreg < Blob2->Xreg`.  With Blob1 registered at
(X=3, Y=5) and Blob2 at (X=1, Y=5), the lexicographically smaller point is
Blob2's own (1,5), yet the code replaces it with (3,5) because 3 < 5; the
same wrong point surfaces in the blob list of a full Blob_Finder scan. -/
theorem merge_blobs_regpoint_bug :
    ((Merge_Vals (New_Blob 3 5 0) (New_Blob 1 5 0)).Xreg = 3 ∧
     (Merge_Vals (New_Blob 3 5 0) (New_Blob 1 5 0)).Yreg = 5) ∧
    ((New_Blob 1 5 0).Yreg = (New_Blob 3 5 0).Yreg ∧
     (New_Blob 1 5 0).Xreg < (New_Blob 3 5 0).Xreg) ∧
    (Blob_Finder dmRegBug 5 7 1).map (fun b => (b.Xreg, b.Yreg)) = [(3, 5)] := by
  refine ⟨⟨by decide, by decide⟩, ⟨by decide, by decide⟩, ?_⟩
  set_option maxRecDepth 10000 in decide

/-! ## Arena access lemmas -/

lemma getB_set_self (A : List BlobR) (i : Nat) (b : BlobR) (h : i < A.length) :
    getB (A.set i b) i = b := by
  unfold getB
  rw [List.getD_eq_getElem?_getD, List.getElem?_set_self (by simpa using h)]
  rfl

lemma getB_set_ne (A : List BlobR) (i j : Nat) (b : BlobR) (h : j ≠ i) :
    getB (A.set i b) j = getB A j := by
  unfold getB
  rw [List.getD_eq_getElem?_getD, List.getElem?_set_ne (fun hh => h hh.symm),
    ← List.getD_eq_getElem?_getD]

lemma getB_append_lt (A : List BlobR) (b : BlobR) (j : Nat) (h : j < A.length) :
    getB (A ++ [b]) j = getB A j := by
  unfold getB
  rw [List.getD_eq_getElem?_getD, List.getElem?_append_left h, ← List.getD_eq_getElem?_getD]

lemma getB_append_self (A : List BlobR) (b : BlobR) :
    getB (A ++ [b]) A.length = b := by
  unfold getB
  rw [List.getD_eq_getElem?_getD]
  simp

lemma getB_oob (A : List BlobR) (j : Nat) (h : A.length ≤ j) : getB A j = default := by
  unfold getB
  rw [List.getD_eq_getElem?_getD, List.getElem?_eq_none (by simpa using h)]
  rfl

lemma FPof_oob (A : List BlobR) (j : Nat) (h : A.length ≤ j) : FPof A j = none := by
  unfold FPof
  rw [getB_oob A j h]
  rfl

lemma FPof_append (A : List BlobR) (X Y ID : Nat) (j : Nat) :
    FPof (A ++ [New_Blob X Y ID]) j = FPof A j := by
  rcases Nat.lt_trichotomy j A.length with h | h | h
  · unfold FPof
    rw [getB_append_lt A _ j h]
  · subst h
    unfold FPof
    rw [getB_append_self, getB_oob A A.length (le_refl _)]
    rfl
  · unfold FPof
    rw [getB_oob A j (by omega), getB_oob (A ++ [New_Blob X Y ID]) j (by simp; omega)]

lemma FPof_set_same_fp (A : List BlobR) (i : Nat) (b : BlobR)
    (h : b.FP = (getB A i).FP) (j : Nat) : FPof (A.set i b) j = FPof A j := by
  by_cases hj : j = i
  · subst hj
    by_cases hlen : j < A.length
    · unfold FPof
      rw [getB_set_self A j b hlen, h]
    · rw [List.set_eq_of_length_le (by omega)]
  · unfold FPof
    rw [getB_set_ne A i j b hj]

/-! ## Reduce_FP and chain bookkeeping -/

lemma reduce_stable (A : List BlobR) (i : Nat) (h : FPof A i = none) :
    ∀ n, Reduce_FP A n i = i := by
  intro n
  cases n with
  | zero => rfl
  | succ n => simp [Reduce_FP, h]

lemma reduce_mono (A : List BlobR) :
    ∀ (n : Nat) (i : Nat), FPof A (Reduce_FP A n i) = none →
      ∀ m, n ≤ m → Reduce_FP A m i = Reduce_FP A n i := by
  intro n
  induction n with
  | zero =>
    intro i hroot m _
    exact reduce_stable A i hroot m
  | succ n ih =>
    intro i hroot m hm
    cases hfp : FPof A i with
    | none =>
      rw [reduce_stable A i hfp m, reduce_stable A i hfp (n + 1)]
    | some j =>
      obtain ⟨m', rfl⟩ : ∃ m', m = m' + 1 := ⟨m - 1, by omega⟩
      simp only [Reduce_FP, hfp] at hroot ⊢
      exact ih j hroot m' (by omega)

lemma reduce_lt (A : List BlobR)
    (hW : ∀ i j, FPof A i = some j → j < A.length ∧ j ≠ i) :
    ∀ (n : Nat) (i : Nat), i < A.length → Reduce_FP A n i < A.length := by
  intro n
  induction n with
  | zero => intro i h; exact h
  | succ n ih =>
    intro i h
    cases hfp : FPof A i with
    | none => simpa [Reduce_FP, hfp] using h
    | some j =>
      simp only [Reduce_FP, hfp]
      exact ih j (hW i j hfp).1

/-- The number of forwarded blobs in the arena. -/
def stubCount (A : List BlobR) : Nat :=
  ((Finset.range A.length).filter (fun i => FPof A i ≠ none)).card

lemma stubCount_le (A : List BlobR) : stubCount A ≤ A.length := by
  calc stubCount A ≤ (Finset.range A.length).card := Finset.card_filter_le _ _
    _ = A.length := Finset.card_range _

/-- Chains always reach a non-forwarded blob, within stubCount steps. -/
def GoodChains (A : List BlobR) : Prop :=
  ∀ i, i < A.length → ∃ n, n ≤ stubCount A ∧ FPof A (Reduce_FP A n i) = none

lemma reduce_root_of_good (A : List BlobR) (hg : GoodChains A) (i : Nat)
    (hi : i < A.length) : FPof A (Reduce_FP A A.length i) = none := by
  obtain ⟨n, hn, hroot⟩ := hg i hi
  rw [reduce_mono A n i hroot A.length (le_trans hn (stubCount_le A))]
  exact hroot

lemma reduce_root_all (A : List BlobR) (hg : GoodChains A) (i : Nat) :
    FPof A (Reduce_FP A A.length i) = none := by
  by_cases hi : i < A.length
  · exact reduce_root_of_good A hg i hi
  · rw [reduce_stable A i (FPof_oob A i (by omega))]
    exact FPof_oob A i (by omega)

lemma reduce_congr (A A' : List BlobR) (hfp : ∀ j, FPof A j = FPof A' j) :
    ∀ (n : Nat) (i : Nat), Reduce_FP A n i = Reduce_FP A' n i := by
  intro n
  induction n with
  | zero => intro i; rfl
  | succ n ih =>
    intro i
    simp only [Reduce_FP, ← hfp i]
    cases FPof A i with
    | none => rfl
    | some j => exact ih j

lemma stubCount_congr (A A' : List BlobR) (hfp : ∀ j, FPof A j = FPof A' j)
    (hlen : A.length = A'.length) : stubCount A = stubCount A' := by
  unfold stubCount
  rw [hlen]
  congr 1
  apply Finset.filter_congr
  intro x _
  rw [hfp x]

lemma goodchains_congr (A A' : List BlobR) (hfp : ∀ j, FPof A j = FPof A' j)
    (hlen : A.length = A'.length) (hg : GoodChains A) : GoodChains A' := by
  intro i hi
  obtain ⟨n, hn, hroot⟩ := hg i (by omega)
  exact ⟨n, by rw [← stubCount_congr A A' hfp hlen]; exact hn,
    by rw [← reduce_congr A A' hfp n i, ← hfp]; exact hroot⟩

lemma stubCount_append (A : List BlobR) (X Y ID : Nat) :
    stubCount (A ++ [New_Blob X Y ID]) = stubCount A := by
  unfold stubCount
  rw [List.length_append, List.length_singleton, Finset.range_succ, Finset.filter_insert,
    if_neg (by rw [FPof_append, FPof_oob A _ (le_refl _)]; simp)]
  congr 1
  apply Finset.filter_congr
  intro x _
  rw [FPof_append]

lemma goodchains_append (A : List BlobR) (X Y ID : Nat) (hg : GoodChains A) :
    GoodChains (A ++ [New_Blob X Y ID]) := by
  intro i hi
  rw [List.length_append, List.length_singleton] at hi
  by_cases h : i < A.length
  · obtain ⟨n, hn, hroot⟩ := hg i h
    refine ⟨n, ?_, ?_⟩
    · rw [stubCount_append]
      exact hn
    · rw [← reduce_congr A _ (fun j => (FPof_append A X Y ID j).symm) n i, FPof_append]
      exact hroot
  · have : i = A.length := by omega
    subst this
    refine ⟨0, Nat.zero_le _, ?_⟩
    rw [FPof_append]
    show FPof A A.length = none
    exact FPof_oob A _ (le_refl _)

lemma merge_vals_fp (b1 b2 : BlobR) : (Merge_Vals b1 b2).FP = b2.FP := by
  unfold Merge_Vals
  dsimp only
  split_ifs <;> rfl

lemma merge_vals_expire (b1 b2 : BlobR) : (Merge_Vals b1 b2).Expire = b2.Expire := by
  unfold Merge_Vals
  dsimp only
  split_ifs <;> rfl

lemma add_position_fp (b : BlobR) (X Y : Nat) : (Add_Position b X Y).FP = b.FP := by
  unfold Add_Position
  dsimp only
  split_ifs <;> rfl

lemma add_position_expire (b : BlobR) (X Y : Nat) :
    (Add_Position b X Y).Expire = b.Expire := by
  unfold Add_Position
  dsimp only
  split_ifs <;> rfl

lemma merge_length (A : List BlobR) (i1 i2 : Nat) (e : Int) :
    (Merge_Blobs A i1 i2 e).length = A.length := by
  unfold Merge_Blobs
  split <;> simp

lemma merge_fpof (A : List BlobR) (i1 i2 : Nat) (e : Int)
    (h1 : i1 < A.length) (h2 : i2 < A.length) (hne : i1 ≠ i2) (j : Nat) :
    FPof (Merge_Blobs A i1 i2 e) j = if j = i1 then some i2 else FPof A j := by
  unfold Merge_Blobs
  rw [if_neg hne]
  by_cases hj : j = i1
  · subst hj
    rw [if_pos rfl]
    unfold FPof
    rw [getB_set_self _ j _ (by simpa using h1)]
  · rw [if_neg hj]
    unfold FPof
    rw [getB_set_ne _ i1 j _ hj]
    by_cases hj2 : j = i2
    · subst hj2
      rw [getB_set_self A j _ h2, merge_vals_fp]
    · rw [getB_set_ne A i2 j _ hj2]

lemma merge_expire_of (A : List BlobR) (i1 i2 : Nat) (e : Int)
    (h1 : i1 < A.length) (h2 : i2 < A.length) (hne : i1 ≠ i2) (j : Nat) :
    (getB (Merge_Blobs A i1 i2 e) j).Expire =
      if j = i1 then e else (getB A j).Expire := by
  unfold Merge_Blobs
  rw [if_neg hne]
  by_cases hj : j = i1
  · subst hj
    rw [if_pos rfl, getB_set_self _ j _ (by simpa using h1)]
  · rw [if_neg hj, getB_set_ne _ i1 j _ hj]
    by_cases hj2 : j = i2
    · subst hj2
      rw [getB_set_self A j _ h2, merge_vals_expire]
    · rw [getB_set_ne A i2 j _ hj2]

lemma stubCount_merge (A : List BlobR) (i1 i2 : Nat) (e : Int)
    (h1 : i1 < A.length) (h2 : i2 < A.length) (hne : i1 ≠ i2)
    (hroot1 : FPof A i1 = none) :
    stubCount (Merge_Blobs A i1 i2 e) = stubCount A + 1 := by
  unfold stubCount
  rw [merge_length]
  have hset : (Finset.range A.length).filter
      (fun i => FPof (Merge_Blobs A i1 i2 e) i ≠ none) =
      insert i1 ((Finset.range A.length).filter (fun i => FPof A i ≠ none)) := by
    ext j
    simp only [Finset.mem_filter, Finset.mem_insert, Finset.mem_range]
    rw [merge_fpof A i1 i2 e h1 h2 hne j]
    by_cases hj : j = i1
    · subst hj
      simp [h1]
    · simp only [if_neg hj]
      constructor
      · intro h
        exact Or.inr h
      · intro h
        rcases h with h | h
        · exact absurd h hj
        · exact h
  rw [hset, Finset.card_insert_of_not_mem (by simp [hroot1])]

lemma reduce_merge_aux (A : List BlobR) (i1 i2 : Nat) (e : Int)
    (h1 : i1 < A.length) (h2 : i2 < A.length) (hne : i1 ≠ i2)
    (hroot1 : FPof A i1 = none) (hroot2 : FPof A i2 = none) :
    ∀ (n : Nat) (a : Nat), FPof A (Reduce_FP A n a) = none →
      (Reduce_FP A n a ≠ i1 →
        Reduce_FP (Merge_Blobs A i1 i2 e) n a = Reduce_FP A n a) ∧
      (Reduce_FP A n a = i1 →
        Reduce_FP (Merge_Blobs A i1 i2 e) (n + 1) a = i2) := by
  have hfp := merge_fpof A i1 i2 e h1 h2 hne
  intro n
  induction n with
  | zero =>
    intro a hroot
    constructor
    · intro hne1
      rfl
    · intro heq
      show Reduce_FP (Merge_Blobs A i1 i2 e) 1 a = i2
      have h1a : FPof (Merge_Blobs A i1 i2 e) a = some i2 := by
        rw [hfp a, if_pos (show a = i1 from heq)]
      simp [Reduce_FP, h1a]
  | succ n ih =>
    intro a hroot
    cases hfa : FPof A a with
    | none =>
      rw [reduce_stable A a hfa] at hroot ⊢
      constructor
      · intro hne1
        have h1a : FPof (Merge_Blobs A i1 i2 e) a = FPof A a := by
          rw [hfp a, if_neg hne1]
        rw [reduce_stable _ a (by rw [h1a]; exact hfa)]
      · intro heq
        have h1a : FPof (Merge_Blobs A i1 i2 e) a = some i2 := by
          rw [hfp a, if_pos (show a = i1 from heq)]
        have h2a : FPof (Merge_Blobs A i1 i2 e) i2 = FPof A i2 := by
          rw [hfp i2, if_neg (fun hh => hne hh.symm)]
        simp only [Reduce_FP, h1a]
        rw [h2a, hroot2]
    | some j =>
      have hane : a ≠ i1 := by
        intro hh
        subst hh
        rw [hroot1] at hfa
        exact Option.noConfusion hfa
      have h1a : FPof (Merge_Blobs A i1 i2 e) a = some j := by
        rw [hfp a, if_neg hane]
        exact hfa
      simp only [Reduce_FP, hfa, h1a] at hroot ⊢
      exact ih j hroot

lemma goodchains_merge (A : List BlobR) (i1 i2 : Nat) (e : Int)
    (h1 : i1 < A.length) (h2 : i2 < A.length) (hne : i1 ≠ i2)
    (hroot1 : FPof A i1 = none) (hroot2 : FPof A i2 = none)
    (hg : GoodChains A) : GoodChains (Merge_Blobs A i1 i2 e) := by
  have hfp := merge_fpof A i1 i2 e h1 h2 hne
  intro a ha
  rw [merge_length] at ha
  obtain ⟨n, hn, hroot⟩ := hg a ha
  obtain ⟨hcase1, hcase2⟩ := reduce_merge_aux A i1 i2 e h1 h2 hne hroot1 hroot2 n a hroot
  by_cases hd : Reduce_FP A n a = i1
  · refine ⟨n + 1, ?_, ?_⟩
    · rw [stubCount_merge A i1 i2 e h1 h2 hne hroot1]
      omega
    · rw [hcase2 hd, hfp i2, if_neg (fun hh => hne hh.symm)]
      exact hroot2
  · refine ⟨n, ?_, ?_⟩
    · rw [stubCount_merge A i1 i2 e h1 h2 hne hroot1]
      omega
    · rw [hcase1 hd, hfp _, if_neg hd]
      exact hroot

lemma getD_set_self {α : Type} (l : List α) (i : Nat) (b d : α) (h : i < l.length) :
    (l.set i b).getD i d = b := by
  rw [List.getD_eq_getElem?_getD, List.getElem?_set_self (by simpa using h)]
  rfl

lemma getD_set_ne {α : Type} (l : List α) (i j : Nat) (b d : α) (h : j ≠ i) :
    (l.set i b).getD j d = l.getD j d := by
  rw [List.getD_eq_getElem?_getD, List.getElem?_set_ne (fun hh => h hh.symm),
    ← List.getD_eq_getElem?_getD]

lemma getD_oob {α : Type} (l : List α) (j : Nat) (d : α) (h : l.length ≤ j) :
    l.getD j d = d := by
  rw [List.getD_eq_getElem?_getD, List.getElem?_eq_none (by simpa using h)]
  rfl

lemma getD_replicate_none (W x : Nat) :
    (List.replicate W (none : Option Nat)).getD x none = none := by
  by_cases h : x < W
  · rw [List.getD_eq_getElem?_getD, List.getElem?_replicate, if_pos h]
    rfl
  · exact getD_oob _ x none (by simpa using (by omega : W ≤ x))

/-- Structural well-formedness of a scanner state: the per-column array has
width W, forwarding pointers land strictly inside the arena and never on
themselves, chains reach roots, and every column / row-blob / active-list
reference is an arena index (with the row blob never forwarded). -/
def WFinv (W : Nat) (s : BFState) : Prop :=
  s.cols.length = W ∧
  (∀ i j, FPof s.arena i = some j → j < s.arena.length ∧ j ≠ i) ∧
  GoodChains s.arena ∧
  (∀ x c, s.cols.getD x none = some c → c < s.arena.length) ∧
  (∀ r, s.row = some r → r < s.arena.length ∧ FPof s.arena r = none) ∧
  (∀ i, i ∈ s.act → i < s.arena.length)

lemma WFinv_init (W : Nat) : WFinv W (BF_Init W) := by
  refine ⟨by simp [BF_Init], ?_, ?_, ?_, ?_, ?_⟩
  · intro i j h
    rw [FPof_oob _ i (by simp [BF_Init])] at h
    exact Option.noConfusion h
  · intro i hi
    simp [BF_Init] at hi
  · intro x c hc
    rw [show (BF_Init W).cols = List.replicate W none from rfl, getD_replicate_none] at hc
    exact Option.noConfusion hc
  · intro r hr
    exact Option.noConfusion hr
  · intro i hi
    simp [BF_Init] at hi

lemma WFinv_reduce_col (W x : Nat) (s : BFState) (h : WFinv W s) :
    WFinv W (BF_Reduce_Col x s) ∧
    (BF_Reduce_Col x s).arena = s.arena ∧
    (BF_Reduce_Col x s).act = s.act ∧
    (BF_Reduce_Col x s).row = s.row ∧
    (∀ c, (BF_Reduce_Col x s).cols.getD x none = some c → FPof s.arena c = none) := by
  obtain ⟨hcols, hW1, hg, hcolb, hrowb, hact⟩ := h
  unfold BF_Reduce_Col
  cases hc : s.cols.getD x none with
  | none =>
    dsimp only
    refine ⟨⟨hcols, hW1, hg, hcolb, hrowb, hact⟩, rfl, rfl, rfl, ?_⟩
    intro c hc'
    rw [hc] at hc'
    exact Option.noConfusion hc'
  | some c =>
    dsimp only
    have hxlen : x < s.cols.length := by
      by_contra hxl
      rw [getD_oob _ x none (by omega)] at hc
      exact Option.noConfusion hc
    by_cases hfp : FPof s.arena c ≠ none
    · rw [if_pos hfp]
      have hclen : c < s.arena.length := hcolb x c hc
      have hred : Reduce_FP s.arena s.arena.length c < s.arena.length :=
        reduce_lt s.arena hW1 _ c hclen
      have hredroot : FPof s.arena (Reduce_FP s.arena s.arena.length c) = none :=
        reduce_root_of_good s.arena hg c hclen
      refine ⟨⟨by simpa using hcols, hW1, hg, ?_, hrowb, hact⟩, rfl, rfl, rfl, ?_⟩
      · intro x' c' hc'
        by_cases hx' : x' = x
        · subst hx'
          rw [getD_set_self _ x' _ none hxlen] at hc'
          cases hc'
          exact hred
        · rw [getD_set_ne _ x x' _ none hx'] at hc'
          exact hcolb x' c' hc'
      · intro c' hc'
        rw [getD_set_self _ x _ none hxlen] at hc'
        cases hc'
        exact hredroot
    · rw [if_neg hfp]
      push_neg at hfp
      refine ⟨⟨hcols, hW1, hg, hcolb, hrowb, hact⟩, rfl, rfl, rfl, ?_⟩
      intro c' hc'
      rw [hc] at hc'
      cases hc'
      exact hfp

lemma WFinv_clear (mapv : Bool) (W y x : Nat) (s : BFState) (h : WFinv W s) :
    WFinv W (BF_Clear mapv W y x s) := by
  obtain ⟨hcols, hW1, hg, hcolb, hrowb, hact⟩ := h
  unfold BF_Clear
  refine ⟨by simpa using hcols, hW1, hg, ?_, ?_, hact⟩
  · intro x' c' hc'
    by_cases hx' : x' = x
    · subst hx'
      by_cases hxl : x' < s.cols.length
      · rw [getD_set_self _ x' _ none hxl] at hc'
        exact Option.noConfusion hc'
      · rw [List.set_eq_of_length_le (Nat.le_of_not_lt hxl)] at hc'
        exact hcolb x' c' hc'
    · rw [getD_set_ne _ x x' _ none hx'] at hc'
      exact hcolb x' c' hc'
  · intro r hr
    exact Option.noConfusion hr

lemma WFinv_join (mapv : Bool) (y x : Nat) (s : BFState) (h : WFinv W s)
    (hcroot : ∀ c, s.cols.getD x none = some c → FPof s.arena c = none) :
    WFinv W (BF_Join mapv y x s).1 ∧
    (BF_Join mapv y x s).2 < (BF_Join mapv y x s).1.arena.length ∧
    FPof (BF_Join mapv y x s).1.arena (BF_Join mapv y x s).2 = none ∧
    (BF_Join mapv y x s).1.cols = s.cols := by
  obtain ⟨hcols, hW1, hg, hcolb, hrowb, hact⟩ := h
  unfold BF_Join
  cases hr : s.row with
  | some r =>
    cases hc : s.cols.getD x none with
    | some c =>
      dsimp only
      have hrlen := (hrowb r hr).1
      have hrroot := (hrowb r hr).2
      have hclen := hcolb x c hc
      have hcroot' := hcroot c hc
      by_cases hcr : c = r
      · rw [show Merge_Blobs s.arena c r (if mapv then 0 else (y : Int) + 1) =
            s.arena from by unfold Merge_Blobs; rw [if_pos hcr]]
        refine ⟨⟨hcols, hW1, hg, hcolb, ?_, hact⟩, hrlen, hrroot, rfl⟩
        intro r' hr'
        cases hr'
        exact ⟨hrlen, hrroot⟩
      · have hfp := merge_fpof s.arena c r (if mapv then 0 else (y : Int) + 1)
          hclen hrlen hcr
        have hlen := merge_length s.arena c r (if mapv then 0 else (y : Int) + 1)
        have hrroot' : FPof (Merge_Blobs s.arena c r
            (if mapv then 0 else (y : Int) + 1)) r = none := by
          rw [hfp r, if_neg (fun hh => hcr hh.symm)]
          exact hrroot
        refine ⟨⟨hcols, ?_, ?_, ?_, ?_, ?_⟩, ?_, hrroot', rfl⟩
        · intro i j hij
          rw [hfp i] at hij
          rw [hlen]
          by_cases hi : i = c
          · rw [if_pos hi] at hij
            cases hij
            exact ⟨hrlen, fun hh => hcr (hh.trans hi).symm⟩
          · rw [if_neg hi] at hij
            exact hW1 i j hij
        · exact goodchains_merge s.arena c r _ hclen hrlen hcr hcroot' hrroot hg
        · intro x' c' hc'
          rw [hlen]
          exact hcolb x' c' hc'
        · intro r' hr'
          cases hr'
          rw [hlen]
          exact ⟨hrlen, hrroot'⟩
        · intro i hi
          rw [hlen]
          exact hact i hi
        · rw [hlen]
          exact hrlen
    | none =>
      dsimp only
      exact ⟨⟨hcols, hW1, hg, hcolb, hrowb, hact⟩, (hrowb r hr).1, (hrowb r hr).2, rfl⟩
  | none =>
    cases hc : s.cols.getD x none with
    | some c =>
      dsimp only
      exact ⟨⟨hcols, hW1, hg, hcolb, hrowb, hact⟩, hcolb x c hc, hcroot c hc, rfl⟩
    | none =>
      dsimp only
      have hfp := fun j => FPof_append s.arena x y 0 j
      have hlen : (s.arena ++ [New_Blob x y 0]).length = s.arena.length + 1 := by simp
      refine ⟨⟨hcols, ?_, goodchains_append s.arena x y 0 hg, ?_, ?_, ?_⟩, ?_, ?_, rfl⟩
      · intro i j hij
        rw [hfp i] at hij
        obtain ⟨hj, hji⟩ := hW1 i j hij
        rw [hlen]
        exact ⟨by omega, hji⟩
      · intro x' c' hc'
        rw [hlen]
        have := hcolb x' c' hc'
        omega
      · intro r' hr'
        exact Option.noConfusion hr'
      · intro i hi
        rw [List.mem_cons] at hi
        rw [hlen]
        rcases hi with hi | hi
        · omega
        · have := hact i hi
          omega
      · rw [hlen]
        omega
      · rw [hfp s.arena.length]
        exact FPof_oob s.arena _ (le_refl _)

lemma WFinv_accum (mapv : Bool) (W y x : Nat) (sr : BFState × Nat)
    (h : WFinv W sr.1) (hlt : sr.2 < sr.1.arena.length)
    (hroot : FPof sr.1.arena sr.2 = none) :
    WFinv W (BF_Accum mapv W y x sr) := by
  obtain ⟨hcols, hW1, hg, hcolb, hrowb, hact⟩ := h
  unfold BF_Accum
  dsimp only
  have hfp : ∀ j, FPof (sr.1.arena.set sr.2 (Add_Position (getB sr.1.arena sr.2) x y)) j =
      FPof sr.1.arena j := by
    intro j
    exact FPof_set_same_fp sr.1.arena sr.2 _ (add_position_fp _ x y) j
  have hlen : (sr.1.arena.set sr.2 (Add_Position (getB sr.1.arena sr.2) x y)).length =
      sr.1.arena.length := by simp
  refine ⟨by simpa using hcols, ?_, ?_, ?_, ?_, ?_⟩
  · intro i j hij
    rw [hfp i] at hij
    rw [hlen]
    exact hW1 i j hij
  · exact goodchains_congr sr.1.arena _ (fun j => (hfp j).symm) hlen.symm hg
  · intro x' c' hc'
    rw [hlen]
    by_cases hx' : x' = x
    · subst hx'
      by_cases hxl : x' < sr.1.cols.length
      · rw [getD_set_self _ x' _ none hxl] at hc'
        cases hc'
        exact hlt
      · rw [List.set_eq_of_length_le (Nat.le_of_not_lt hxl)] at hc'
        exact hcolb x' c' hc'
    · rw [getD_set_ne _ x x' _ none hx'] at hc'
      exact hcolb x' c' hc'
  · intro r hr
    cases hr
    rw [hlen, hfp sr.2]
    exact ⟨hlt, hroot⟩
  · intro i hi
    rw [hlen]
    exact hact i hi

lemma WFinv_pixel (mapv : Bool) (dm : Nat → Int) (W : Nat) (Bth : Int) (y x : Nat)
    (s : BFState) (h : WFinv W s) : WFinv W (BF_Pixel mapv dm W Bth y x s) := by
  obtain ⟨h1, harena, _, _, hcroot⟩ := WFinv_reduce_col W x s h
  unfold BF_Pixel
  split
  · obtain ⟨hj, hlt, hroot, _⟩ := WFinv_join mapv y x (BF_Reduce_Col x s) h1
      (by
        intro c hc
        have h2 := hcroot c hc
        rw [harena]
        exact h2)
    exact WFinv_accum mapv W y x _ hj hlt hroot
  · exact WFinv_clear mapv W y x _ h1

/-! ## Row and scan level invariants -/

lemma mem_reap_expired (A : List BlobR) (Now : Int) :
    ∀ (l : List Nat) (i : Nat),
      i ∈ Reap_Expired_Blobs A Now l ↔ i ∈ l ∧ (getB A i).Expire ≠ Now := by
  intro l
  induction l with
  | nil => intro i; simp [Reap_Expired_Blobs]
  | cons a rest ih =>
    intro i
    unfold Reap_Expired_Blobs
    by_cases ha : (getB A a).Expire = Now
    · rw [if_pos ha, ih i]
      constructor
      · rintro ⟨hi, hne⟩
        exact ⟨List.mem_cons_of_mem a hi, hne⟩
      · rintro ⟨hi, hne⟩
        rcases List.mem_cons.mp hi with rfl | hi
        · exact absurd ha hne
        · exact ⟨hi, hne⟩
    · rw [if_neg ha]
      constructor
      · intro hi
        rcases List.mem_cons.mp hi with rfl | hi
        · exact ⟨List.mem_cons_self _ _, ha⟩
        · exact ⟨List.mem_cons_of_mem a (ih i |>.mp hi).1, (ih i |>.mp hi).2⟩
      · rintro ⟨hi, hne⟩
        rcases List.mem_cons.mp hi with rfl | hi
        · exact List.mem_cons_self _ _
        · exact List.mem_cons_of_mem a ((ih i).mpr ⟨hi, hne⟩)

lemma mem_reap_fp (A : List BlobR) :
    ∀ (l : List Nat) (i : Nat),
      i ∈ Reap_FP_Blobs A l ↔ i ∈ l ∧ FPof A i = none := by
  intro l
  induction l with
  | nil => intro i; simp [Reap_FP_Blobs]
  | cons a rest ih =>
    intro i
    unfold Reap_FP_Blobs
    by_cases ha : FPof A a ≠ none
    · rw [if_pos ha, ih i]
      constructor
      · rintro ⟨hi, hroot⟩
        exact ⟨List.mem_cons_of_mem a hi, hroot⟩
      · rintro ⟨hi, hroot⟩
        rcases List.mem_cons.mp hi with rfl | hi
        · exact absurd hroot ha
        · exact ⟨hi, hroot⟩
    · rw [if_neg ha]
      push_neg at ha
      constructor
      · intro hi
        rcases List.mem_cons.mp hi with rfl | hi
        · exact ⟨List.mem_cons_self _ _, ha⟩
        · exact ⟨List.mem_cons_of_mem a (ih i |>.mp hi).1, (ih i |>.mp hi).2⟩
      · rintro ⟨hi, hroot⟩
        rcases List.mem_cons.mp hi with rfl | hi
        · exact List.mem_cons_self _ _
        · exact List.mem_cons_of_mem a ((ih i).mpr ⟨hi, hroot⟩)

lemma WFinv_row_clear (s : BFState) (h : WFinv W s) : WFinv W { s with row := none } := by
  obtain ⟨hcols, hW1, hg, hcolb, hrowb, hact⟩ := h
  exact ⟨hcols, hW1, hg, hcolb, fun r hr => Option.noConfusion hr, hact⟩

lemma WFinv_pixfold (mapv : Bool) (dm : Nat → Int) (W : Nat) (Bth : Int) (y : Nat) :
    ∀ (l : List Nat) (s : BFState), WFinv W s →
      WFinv W (l.foldl (fun s x => BF_Pixel mapv dm W Bth y x s) s) := by
  intro l
  induction l with
  | nil => intro s h; exact h
  | cons a rest ih =>
    intro s h
    exact ih _ (WFinv_pixel mapv dm W Bth y a s h)

lemma WFinv_row (mapv : Bool) (dm : Nat → Int) (W : Nat) (Bth : Int) (s : BFState)
    (y : Nat) (h : WFinv W s) : WFinv W (BF_Row mapv dm W Bth s y) := by
  unfold BF_Row
  have h' := WFinv_pixfold mapv dm W Bth y (List.range W) _ (WFinv_row_clear s h)
  cases mapv with
  | true => exact h'
  | false =>
    obtain ⟨hcols, hW1, hg, hcolb, hrowb, hact⟩ := h'
    refine ⟨hcols, hW1, hg, hcolb, hrowb, ?_⟩
    intro i hi
    exact hact i ((mem_reap_expired _ _ _ i).mp hi).1

/-- The state of either scan after `ys` full rows and `x` pixels of row
`ys` (row blob cleared at the row's start). -/
def BF_StateAt (mapv : Bool) (dm : Nat → Int) (W : Nat) (Bth : Int) (ys x : Nat) :
    BFState :=
  (List.range x).foldl (fun s x' => BF_Pixel mapv dm W Bth ys x' s)
    { (List.range ys).foldl (BF_Row mapv dm W Bth) (BF_Init W) with row := none }

lemma WFinv_rows (mapv : Bool) (dm : Nat → Int) (W : Nat) (Bth : Int) :
    ∀ (l : List Nat), WFinv W (l.foldl (BF_Row mapv dm W Bth) (BF_Init W)) := by
  have : ∀ (l : List Nat) (s : BFState), WFinv W s →
      WFinv W (l.foldl (BF_Row mapv dm W Bth) s) := by
    intro l
    induction l with
    | nil => intro s h; exact h
    | cons a rest ih => intro s h; exact ih _ (WFinv_row mapv dm W Bth s a h)
  intro l
  exact this l _ (WFinv_init W)

lemma WFinv_stateAt (mapv : Bool) (dm : Nat → Int) (W : Nat) (Bth : Int) (ys x : Nat) :
    WFinv W (BF_StateAt mapv dm W Bth ys x) := by
  unfold BF_StateAt
  exact WFinv_pixfold mapv dm W Bth ys _ _
    (WFinv_row_clear _ (WFinv_rows mapv dm W Bth (List.range ys)))

lemma rows_fold_succ (mapv : Bool) (dm : Nat → Int) (W : Nat) (Bth : Int) (y : Nat) :
    (List.range (y + 1)).foldl (BF_Row mapv dm W Bth) (BF_Init W) =
      BF_Row mapv dm W Bth ((List.range y).foldl (BF_Row mapv dm W Bth) (BF_Init W)) y := by
  rw [List.range_succ, List.foldl_append]
  rfl

lemma number_blobs_foldl_fpof (act : List Nat) :
    ∀ (st : List BlobR × Nat) (j : Nat),
      FPof (act.foldl
        (fun st i =>
          if FPof st.1 i = none then (st.1.set i { getB st.1 i with ID := st.2 }, st.2 + 1)
          else st) st).1 j = FPof st.1 j := by
  induction act with
  | nil => intro st j; rfl
  | cons a rest ih =>
    intro st j
    rw [List.foldl_cons, ih]
    by_cases ha : FPof st.1 a = none
    · rw [if_pos ha]
      dsimp only
      exact FPof_set_same_fp st.1 a { getB st.1 a with ID := st.2 } rfl j
    · rw [if_neg ha]

lemma number_blobs_foldl_length (act : List Nat) :
    ∀ (st : List BlobR × Nat),
      (act.foldl
        (fun st i =>
          if FPof st.1 i = none then (st.1.set i { getB st.1 i with ID := st.2 }, st.2 + 1)
          else st) st).1.length = st.1.length := by
  induction act with
  | nil => intro st; rfl
  | cons a rest ih =>
    intro st
    rw [List.foldl_cons, ih]
    by_cases ha : FPof st.1 a = none
    · rw [if_pos ha]
      simp
    · rw [if_neg ha]

lemma number_blobs_fpof (A : List BlobR) (act : List Nat) (j : Nat) :
    FPof (Number_Blobs A act) j = FPof A j :=
  number_blobs_foldl_fpof act (A, 1) j

lemma number_blobs_length (A : List BlobR) (act : List Nat) :
    (Number_Blobs A act).length = A.length :=
  number_blobs_foldl_length act (A, 1)

/-- Claim C10: Merge_Blobs called with the same blob for both arguments
leaves the arena unchanged (never installing a self forwarding pointer);
in every state reachable during a Blob_Finder or Blob_Finder_Map scan each
forwarding pointer leads to a distinct in-arena blob, and following the
forwarding chain with fuel the arena size always lands on a blob with no
forwarding reference, so Reduce_FP terminates with a root on every blob —
also on the numbered arena used by Blob_Finder_Map to flatten handles. -/
theorem merge_self_noop_and_fp_chains_terminate :
    (∀ (A : List BlobR) (i : Nat) (E : Int), Merge_Blobs A i i E = A) ∧
    (∀ (mapv : Bool) (dm : Nat → Int) (W : Nat) (Bth : Int) (ys x : Nat),
      (∀ i j, FPof (BF_StateAt mapv dm W Bth ys x).arena i = some j →
        j < (BF_StateAt mapv dm W Bth ys x).arena.length ∧ j ≠ i) ∧
      (∀ i, FPof (BF_StateAt mapv dm W Bth ys x).arena
        (Reduce_FP (BF_StateAt mapv dm W Bth ys x).arena
          (BF_StateAt mapv dm W Bth ys x).arena.length i) = none)) ∧
    (∀ (dm : Nat → Int) (W H : Nat) (Bth : Int) (i : Nat),
      FPof
        (Number_Blobs (BF_Scan true dm W H Bth).arena (BF_Scan true dm W H Bth).act)
        (Reduce_FP
          (Number_Blobs (BF_Scan true dm W H Bth).arena (BF_Scan true dm W H Bth).act)
          (Number_Blobs (BF_Scan true dm W H Bth).arena
            (BF_Scan true dm W H Bth).act).length i) = none) := by
  refine ⟨?_, ?_, ?_⟩
  · intro A i E
    unfold Merge_Blobs
    rw [if_pos rfl]
  · intro mapv dm W Bth ys x
    obtain ⟨_, hW1, hg, _, _, _⟩ := WFinv_stateAt mapv dm W Bth ys x
    exact ⟨hW1, fun i => reduce_root_all _ hg i⟩
  · intro dm W H Bth i
    obtain ⟨_, _, hg, _, _, _⟩ := WFinv_rows true dm W Bth (List.range H)
    have hg' := goodchains_congr _
      (Number_Blobs (BF_Scan true dm W H Bth).arena (BF_Scan true dm W H Bth).act)
      (fun j => (number_blobs_fpof (BF_Scan true dm W H Bth).arena
        (BF_Scan true dm W H Bth).act j).symm)
      (number_blobs_length (BF_Scan true dm W H Bth).arena
        (BF_Scan true dm W H Bth).act).symm hg
    exact reduce_root_all _ hg' i

theorem merge_self_noop_and_fp_chains_terminate_witness :
    (0 < (BF_StateAt false (dmOf [1, 0, 1, 1, 1, 1]) 3 1 1 3).arena.length ∧ 0 ≠ 1) ∧
    FPof (BF_StateAt false (dmOf [1, 0, 1, 1, 1, 1]) 3 1 1 3).arena
      (Reduce_FP (BF_StateAt false (dmOf [1, 0, 1, 1, 1, 1]) 3 1 1 3).arena
        (BF_StateAt false (dmOf [1, 0, 1, 1, 1, 1]) 3 1 1 3).arena.length 1) = none :=
  ⟨(merge_self_noop_and_fp_chains_terminate.2.1 false
      (dmOf [1, 0, 1, 1, 1, 1]) 3 1 1 3).1 1 0 (by decide),
   (merge_self_noop_and_fp_chains_terminate.2.1 false
      (dmOf [1, 0, 1, 1, 1, 1]) 3 1 1 3).2 1⟩

/-! ## Forwarding-chain reachability -/

/-- The nodes reachable from a blob by following forwarding pointers. -/
def ReachF (A : List BlobR) : Nat → Nat → Prop :=
  Relation.ReflTransGen (fun a b => FPof A a = some b)

lemma reach_of_root (A : List BlobR) (r n : Nat) (hr : FPof A r = none)
    (h : ReachF A r n) : n = r := by
  rcases Relation.ReflTransGen.cases_head h with h | ⟨c, e, _⟩
  · exact h.symm
  · rw [hr] at e
    exact Option.noConfusion e

lemma reach_lt (A : List BlobR)
    (hW1 : ∀ i j, FPof A i = some j → j < A.length ∧ j ≠ i)
    (c n : Nat) (hc : c < A.length) (h : ReachF A c n) : n < A.length := by
  induction h with
  | refl => exact hc
  | tail h' e ih => exact (hW1 _ _ e).1

lemma reduce_mem_reach (A : List BlobR) :
    ∀ (n i : Nat), ReachF A i (Reduce_FP A n i) := by
  intro n
  induction n with
  | zero => intro i; exact Relation.ReflTransGen.refl
  | succ n ih =>
    intro i
    cases hfp : FPof A i with
    | none =>
      rw [reduce_stable A i hfp]
      exact Relation.ReflTransGen.refl
    | some j =>
      simp only [Reduce_FP, hfp]
      exact Relation.ReflTransGen.trans (Relation.ReflTransGen.single hfp) (ih j)

lemma reach_congr (A A' : List BlobR) (hfp : ∀ j, FPof A j = FPof A' j)
    (c n : Nat) (h : ReachF A c n) : ReachF A' c n := by
  induction h with
  | refl => exact Relation.ReflTransGen.refl
  | tail h' e ih => exact Relation.ReflTransGen.tail ih (by rw [← hfp]; exact e)

lemma reach_append (A : List BlobR) (X Y ID : Nat) (c n : Nat)
    (h : ReachF (A ++ [New_Blob X Y ID]) c n) : ReachF A c n :=
  reach_congr _ A (fun j => FPof_append A X Y ID j) c n h

lemma reach_merge (A : List BlobR) (c r : Nat) (E : Int)
    (hc : c < A.length) (hr : r < A.length) (hcr : c ≠ r)
    (hrroot : FPof A r = none) (d n : Nat)
    (h : ReachF (Merge_Blobs A c r E) d n) : ReachF A d n ∨ n = r := by
  induction h with
  | refl => exact Or.inl Relation.ReflTransGen.refl
  | tail h' e ih =>
    rename_i b m
    rcases ih with ihA | hbr
    · by_cases hb : b = c
      · subst hb
        have hcfp : FPof (Merge_Blobs A b r E) b = some r := by
          rw [merge_fpof A b r E hc hr hcr b, if_pos rfl]
        right
        exact Option.some.inj ((Eq.symm e).trans hcfp)
      · left
        refine Relation.ReflTransGen.tail ihA ?_
        have : FPof (Merge_Blobs A c r E) b = FPof A b := by
          rw [merge_fpof A c r E hc hr hcr b, if_neg hb]
        rw [← this]
        exact e
    · exfalso
      have : FPof (Merge_Blobs A c r E) b = FPof A b := by
        rw [merge_fpof A c r E hc hr hcr b, if_neg (fun h => hcr ((h.symm.trans hbr)))]
      rw [this, hbr, hrroot] at e
      exact Option.noConfusion e

/-! ## Expiration safety invariant (plain Blob_Finder) -/

/-- Every node on a forwarding chain hanging off a column reference is
still on the active list and carries an expiration that postdates the
reap about to happen: -1 (a root), y+1 (stubbed during the current row),
or y for a column not yet revisited this row. -/
def ColOK (y x : Nat) (s : BFState) : Prop :=
  ∀ x' c, s.cols.getD x' none = some c → ∀ n, ReachF s.arena c n →
    n ∈ s.act ∧
      ((getB s.arena n).Expire = -1 ∨ (getB s.arena n).Expire = (y : Int) + 1 ∨
       ((getB s.arena n).Expire = (y : Int) ∧ x ≤ x'))

/-- Mid-row safety bundle: well-formedness, every root still active with
Expire -1, and every column-referenced chain safe. -/
def SafeInv (W y x : Nat) (s : BFState) : Prop :=
  WFinv W s ∧
  (∀ i, i < s.arena.length → FPof s.arena i = none → i ∈ s.act) ∧
  (∀ i, i < s.arena.length → FPof s.arena i = none → (getB s.arena i).Expire = -1) ∧
  ColOK y x s

lemma cols_reduce_col_ne (x x' : Nat) (s : BFState) (hne : x' ≠ x) :
    (BF_Reduce_Col x s).cols.getD x' none = s.cols.getD x' none := by
  unfold BF_Reduce_Col
  cases s.cols.getD x none with
  | none => rfl
  | some c =>
    dsimp only
    split
    · exact getD_set_ne _ x x' _ none hne
    · rfl

lemma SafeInv_reduce_col (W y x : Nat) (s : BFState) (h : SafeInv W y x s) :
    SafeInv W y x (BF_Reduce_Col x s) := by
  obtain ⟨hwf, hS1, hS2, hCH⟩ := h
  obtain ⟨hwf', harena, hact, hrow, hcroot⟩ := WFinv_reduce_col W x s hwf
  refine ⟨hwf', ?_, ?_, ?_⟩
  · intro i hi hroot
    rw [harena] at hi hroot
    rw [hact]
    exact hS1 i hi hroot
  · intro i hi hroot
    rw [harena] at hi hroot ⊢
    exact hS2 i hi hroot
  · intro x' c hc n hn
    by_cases hx' : x' = x
    · subst hx'
      have hroot : FPof s.arena c = none := hcroot c hc
      have hn' : n = c := by
        rw [harena] at hn
        exact reach_of_root s.arena c n hroot hn
      subst hn'
      have hclen : n < (BF_Reduce_Col x' s).arena.length := hwf'.2.2.2.1 x' n hc
      rw [harena] at hclen
      refine ⟨?_, ?_⟩
      · rw [hact]
        exact hS1 n hclen hroot
      · rw [harena]
        exact Or.inl (hS2 n hclen hroot)
    · rw [cols_reduce_col_ne x x' s hx'] at hc
      rw [harena] at hn ⊢
      rw [hact]
      exact hCH x' c hc n hn

lemma SafeInv_clear (W y x : Nat) (s : BFState) (h : SafeInv W y x s) :
    SafeInv W y (x + 1) (BF_Clear false W y x s) := by
  obtain ⟨hwf, hS1, hS2, hCH⟩ := h
  refine ⟨WFinv_clear false W y x s hwf, ?_, ?_, ?_⟩
  · intro i hi hroot
    exact hS1 i hi hroot
  · intro i hi hroot
    exact hS2 i hi hroot
  · intro x' c hc n hn
    by_cases hx' : x' = x
    · subst hx'
      exfalso
      by_cases hxl : x' < s.cols.length
      · rw [show (BF_Clear false W y x' s).cols = s.cols.set x' none from rfl,
          getD_set_self _ x' _ none hxl] at hc
        exact Option.noConfusion hc
      · rw [show (BF_Clear false W y x' s).cols = s.cols.set x' none from rfl,
          List.set_eq_of_length_le (Nat.le_of_not_lt hxl),
          getD_oob _ x' none (Nat.le_of_not_lt hxl)] at hc
        exact Option.noConfusion hc
    · rw [show (BF_Clear false W y x s).cols = s.cols.set x none from rfl,
        getD_set_ne _ x x' _ none hx'] at hc
      obtain ⟨hmem, hdisj⟩ := hCH x' c hc n hn
      refine ⟨hmem, ?_⟩
      rcases hdisj with h1 | h2 | ⟨h3, hx⟩
      · exact Or.inl h1
      · exact Or.inr (Or.inl h2)
      · exact Or.inr (Or.inr ⟨h3, by omega⟩)

lemma SafeJoin (W y x : Nat) (s : BFState) (h : SafeInv W y x s)
    (hcroot : ∀ c, s.cols.getD x none = some c → FPof s.arena c = none) :
    (∀ i, i < (BF_Join false y x s).1.arena.length →
      FPof (BF_Join false y x s).1.arena i = none → i ∈ (BF_Join false y x s).1.act) ∧
    (∀ i, i < (BF_Join false y x s).1.arena.length →
      FPof (BF_Join false y x s).1.arena i = none →
      (getB (BF_Join false y x s).1.arena i).Expire = -1) ∧
    ColOK y x (BF_Join false y x s).1 ∧
    (BF_Join false y x s).2 ∈ (BF_Join false y x s).1.act := by
  obtain ⟨⟨hcols, hW1, hg, hcolb, hrowb, hact⟩, hS1, hS2, hCH⟩ := h
  unfold BF_Join
  cases hr : s.row with
  | some r =>
    cases hc : s.cols.getD x none with
    | some c =>
      dsimp only
      have hrlen := (hrowb r hr).1
      have hrroot := (hrowb r hr).2
      have hclen := hcolb x c hc
      have hcroot' := hcroot c hc
      by_cases hcr : c = r
      · rw [show Merge_Blobs s.arena c r (if (false : Bool) then 0 else (y : Int) + 1) =
            s.arena from by unfold Merge_Blobs; rw [if_pos hcr]]
        exact ⟨hS1, hS2, hCH, hS1 r hrlen hrroot⟩
      · have hEval : (if (false : Bool) then (0 : Int) else (y : Int) + 1) =
            (y : Int) + 1 := rfl
        rw [hEval]
        have hfp := merge_fpof s.arena c r ((y : Int) + 1) hclen hrlen hcr
        have hlen := merge_length s.arena c r ((y : Int) + 1)
        have hexp := merge_expire_of s.arena c r ((y : Int) + 1) hclen hrlen hcr
        refine ⟨?_, ?_, ?_, hS1 r hrlen hrroot⟩
        · intro i hi hrooti
          rw [hfp i] at hrooti
          by_cases hic : i = c
          · rw [if_pos hic] at hrooti
            exact Option.noConfusion hrooti
          · rw [if_neg hic] at hrooti
            rw [hlen] at hi
            exact hS1 i hi hrooti
        · intro i hi hrooti
          rw [hfp i] at hrooti
          by_cases hic : i = c
          · rw [if_pos hic] at hrooti
            exact Option.noConfusion hrooti
          · rw [if_neg hic] at hrooti
            rw [hlen] at hi
            rw [hexp i, if_neg hic]
            exact hS2 i hi hrooti
        · intro x' d hd n hn
          rcases reach_merge s.arena c r ((y : Int) + 1) hclen hrlen hcr hrroot d n hn
            with hA | hnr
          · obtain ⟨hmem, hdisj⟩ := hCH x' d hd n hA
            refine ⟨hmem, ?_⟩
            rw [hexp n]
            by_cases hnc : n = c
            · rw [if_pos hnc]
              exact Or.inr (Or.inl rfl)
            · rw [if_neg hnc]
              exact hdisj
          · refine ⟨?_, ?_⟩
            · rw [hnr]
              exact hS1 r hrlen hrroot
            · rw [hnr, hexp r, if_neg (fun h => hcr h.symm)]
              exact Or.inl (hS2 r hrlen hrroot)
    | none =>
      dsimp only
      exact ⟨hS1, hS2, hCH, hS1 r (hrowb r hr).1 (hrowb r hr).2⟩
  | none =>
    cases hc : s.cols.getD x none with
    | some c =>
      dsimp only
      exact ⟨hS1, hS2, hCH, hS1 c (hcolb x c hc) (hcroot c hc)⟩
    | none =>
      dsimp only
      have hfp := fun j => FPof_append s.arena x y 0 j
      have hlen : (s.arena ++ [New_Blob x y 0]).length = s.arena.length + 1 := by simp
      refine ⟨?_, ?_, ?_, List.mem_cons_self _ _⟩
      · intro i hi hrooti
        rw [hfp i] at hrooti
        by_cases hil : i < s.arena.length
        · exact List.mem_cons_of_mem _ (hS1 i hil hrooti)
        · have hieq : i = s.arena.length := by rw [hlen] at hi; omega
          rw [hieq]
          exact List.mem_cons_self _ _
      · intro i hi hrooti
        rw [hfp i] at hrooti
        by_cases hil : i < s.arena.length
        · rw [show getB (s.arena ++ [New_Blob x y 0]) i = getB s.arena i from
            getB_append_lt _ _ i hil]
          exact hS2 i hil hrooti
        · have hieq : i = s.arena.length := by rw [hlen] at hi; omega
          rw [hieq, show getB (s.arena ++ [New_Blob x y 0]) s.arena.length =
            New_Blob x y 0 from getB_append_self _ _]
          rfl
      · intro x' d hd n hn
        have hdlen := hcolb x' d hd
        have hA := reach_append s.arena x y 0 d n hn
        have hnlen := reach_lt s.arena hW1 d n hdlen hA
        obtain ⟨hmem, hdisj⟩ := hCH x' d hd n hA
        refine ⟨List.mem_cons_of_mem _ hmem, ?_⟩
        rw [show getB (s.arena ++ [New_Blob x y 0]) n = getB s.arena n from
          getB_append_lt _ _ n hnlen]
        exact hdisj

lemma SafeAccum (W y x : Nat) (sr : BFState × Nat) (h : SafeInv W y x sr.1)
    (hj : sr.2 < sr.1.arena.length) (hroot : FPof sr.1.arena sr.2 = none)
    (hmem : sr.2 ∈ sr.1.act) :
    SafeInv W y (x + 1) (BF_Accum false W y x sr) := by
  obtain ⟨hwf, hS1, hS2, hCH⟩ := h
  have hwf' := WFinv_accum false W y x sr hwf hj hroot
  have hfp : ∀ i, FPof (BF_Accum false W y x sr).arena i = FPof sr.1.arena i := by
    intro i
    exact FPof_set_same_fp sr.1.arena sr.2 _ (add_position_fp _ x y) i
  have hexp : ∀ i, (getB (BF_Accum false W y x sr).arena i).Expire =
      (getB sr.1.arena i).Expire := by
    intro i
    show (getB (sr.1.arena.set sr.2 (Add_Position (getB sr.1.arena sr.2) x y)) i).Expire = _
    by_cases hij : i = sr.2
    · rw [hij, getB_set_self _ _ _ hj, add_position_expire]
    · rw [getB_set_ne _ _ _ _ hij]
  have hlen : (BF_Accum false W y x sr).arena.length = sr.1.arena.length := by
    show (sr.1.arena.set _ _).length = _
    simp
  refine ⟨hwf', ?_, ?_, ?_⟩
  · intro i hi hrooti
    rw [hlen] at hi
    rw [hfp i] at hrooti
    exact hS1 i hi hrooti
  · intro i hi hrooti
    rw [hlen] at hi
    rw [hfp i] at hrooti
    rw [hexp i]
    exact hS2 i hi hrooti
  · intro x' d hd n hn
    have hreach : ReachF sr.1.arena d n := reach_congr _ _ hfp d n hn
    by_cases hx' : x' = x
    · rw [hx'] at hd
      by_cases hxl : x < sr.1.cols.length
      · rw [show (BF_Accum false W y x sr).cols = sr.1.cols.set x (some sr.2) from rfl,
          getD_set_self _ x _ none hxl] at hd
        have hdj : d = sr.2 := (Option.some.inj hd).symm
        have hrootd : FPof (BF_Accum false W y x sr).arena d = none := by
          rw [hfp d, hdj]
          exact hroot
        have hnd : n = d := reach_of_root _ d n hrootd hn
        rw [hnd, hdj]
        refine ⟨hmem, Or.inl ?_⟩
        rw [hexp sr.2]
        exact hS2 sr.2 hj hroot
      · rw [show (BF_Accum false W y x sr).cols = sr.1.cols.set x (some sr.2) from rfl,
          List.set_eq_of_length_le (Nat.le_of_not_lt hxl),
          getD_oob _ x none (Nat.le_of_not_lt hxl)] at hd
        exact Option.noConfusion hd
    · rw [show (BF_Accum false W y x sr).cols = sr.1.cols.set x (some sr.2) from rfl,
        getD_set_ne _ x x' _ none hx'] at hd
      obtain ⟨hmemn, hdisj⟩ := hCH x' d hd n hreach
      refine ⟨hmemn, ?_⟩
      rw [hexp n]
      rcases hdisj with h1 | h2 | ⟨h3, hxx⟩
      · exact Or.inl h1
      · exact Or.inr (Or.inl h2)
      · exact Or.inr (Or.inr ⟨h3, by omega⟩)

lemma SafeInv_worthy (W y x : Nat) (s : BFState) (h : SafeInv W y x s)
    (hcroot : ∀ c, s.cols.getD x none = some c → FPof s.arena c = none) :
    SafeInv W y (x + 1) (BF_Accum false W y x (BF_Join false y x s)) := by
  obtain ⟨hwfJ, hjlen, hjroot, hcolsJ⟩ := WFinv_join false y x s h.1 hcroot
  obtain ⟨hS1J, hS2J, hCHJ, hjmem⟩ := SafeJoin W y x s h hcroot
  exact SafeAccum W y x (BF_Join false y x s) ⟨hwfJ, hS1J, hS2J, hCHJ⟩ hjlen hjroot hjmem

lemma SafeInv_pixel (dm : Nat → Int) (W : Nat) (Bth : Int) (y x : Nat) (s : BFState)
    (h : SafeInv W y x s) : SafeInv W y (x + 1) (BF_Pixel false dm W Bth y x s) := by
  have h1 := SafeInv_reduce_col W y x s h
  have harena := (WFinv_reduce_col W x s h.1).2.1
  have hcroot := (WFinv_reduce_col W x s h.1).2.2.2.2
  unfold BF_Pixel
  split
  · exact SafeInv_worthy W y x _ h1 (fun c hc => by rw [harena]; exact hcroot c hc)
  · exact SafeInv_clear W y x _ h1

lemma SafeInv_reap (W y : Nat) (s : BFState) (h : SafeInv W y W s) :
    SafeInv W (y + 1) 0
      { s with act := Reap_Expired_Blobs s.arena (y : Int) s.act, row := none } := by
  obtain ⟨⟨hcols, hW1, hg, hcolb, hrowb, hact⟩, hS1, hS2, hCH⟩ := h
  refine ⟨⟨hcols, hW1, hg, hcolb, ?_, ?_⟩, ?_, ?_, ?_⟩
  · intro r hr
    exact Option.noConfusion hr
  · intro i hi
    exact hact i ((mem_reap_expired _ _ _ i).mp hi).1
  · intro i hi hrooti
    refine (mem_reap_expired _ _ _ i).mpr ⟨hS1 i hi hrooti, ?_⟩
    rw [hS2 i hi hrooti]
    omega
  · intro i hi hrooti
    exact hS2 i hi hrooti
  · intro x' c hc n hn
    have hc' : s.cols.getD x' none = some c := hc
    have hn' : ReachF s.arena c n := hn
    have hx'W : x' < W := by
      by_contra hx'W
      rw [getD_oob _ x' none (by omega)] at hc'
      exact Option.noConfusion hc'
    obtain ⟨hmem, hdisj⟩ := hCH x' c hc' n hn'
    have hexp : (getB s.arena n).Expire = -1 ∨ (getB s.arena n).Expire = (y : Int) + 1 := by
      rcases hdisj with h1 | h2 | ⟨h3, hxx⟩
      · exact Or.inl h1
      · exact Or.inr h2
      · omega
    refine ⟨?_, ?_⟩
    · refine (mem_reap_expired _ _ _ n).mpr ⟨hmem, ?_⟩
      rcases hexp with h1 | h2
      · rw [h1]; omega
      · rw [h2]; omega
    · rcases hexp with h1 | h2
      · exact Or.inl h1
      · refine Or.inr (Or.inr ⟨?_, Nat.zero_le _⟩)
        rw [h2]
        push_cast
        ring

lemma stateAt_succ_x (mapv : Bool) (dm : Nat → Int) (W : Nat) (Bth : Int) (ys x : Nat) :
    BF_StateAt mapv dm W Bth ys (x + 1) =
      BF_Pixel mapv dm W Bth ys x (BF_StateAt mapv dm W Bth ys x) := by
  unfold BF_StateAt
  rw [List.range_succ, List.foldl_append]
  rfl

lemma stateAt_row_succ (dm : Nat → Int) (W : Nat) (Bth : Int) (ys : Nat) :
    BF_StateAt false dm W Bth (ys + 1) 0 =
      { BF_StateAt false dm W Bth ys W with
        act := Reap_Expired_Blobs (BF_StateAt false dm W Bth ys W).arena (ys : Int)
          (BF_StateAt false dm W Bth ys W).act,
        row := none } := by
  unfold BF_StateAt
  rw [List.range_succ, List.foldl_append]
  rfl

lemma SafeInv_start (dm : Nat → Int) (W : Nat) (Bth : Int) :
    SafeInv W 0 0 (BF_StateAt false dm W Bth 0 0) := by
  refine ⟨WFinv_row_clear _ (WFinv_init W), ?_, ?_, ?_⟩
  · intro i hi hrooti
    simp [BF_StateAt, BF_Init] at hi
  · intro i hi hrooti
    simp [BF_StateAt, BF_Init] at hi
  · intro x' c hc n hn
    have hc' : (List.replicate W (none : Option Nat)).getD x' none = some c := hc
    rw [getD_replicate_none] at hc'
    exact Option.noConfusion hc'

lemma safe_stateAt (dm : Nat → Int) (W : Nat) (Bth : Int) :
    ∀ ys x, SafeInv W ys x (BF_StateAt false dm W Bth ys x) := by
  have hrow : ∀ ys, SafeInv W ys 0 (BF_StateAt false dm W Bth ys 0) →
      ∀ x, SafeInv W ys x (BF_StateAt false dm W Bth ys x) := by
    intro ys h0 x
    induction x with
    | zero => exact h0
    | succ x ih =>
      rw [stateAt_succ_x]
      exact SafeInv_pixel dm W Bth ys x _ ih
  have hbase : ∀ ys, SafeInv W ys 0 (BF_StateAt false dm W Bth ys 0) := by
    intro ys
    induction ys with
    | zero => exact SafeInv_start dm W Bth
    | succ ys ih =>
      rw [stateAt_row_succ]
      exact SafeInv_reap W ys _ (hrow ys ih W)
  intro ys x
  exact hrow ys (hbase ys) x

lemma accum_fpof (W y x : Nat) (sr : BFState × Nat) (i : Nat) :
    FPof (BF_Accum false W y x sr).arena i = FPof sr.1.arena i :=
  FPof_set_same_fp sr.1.arena sr.2 _ (add_position_fp _ x y) i

lemma accum_expire (W y x : Nat) (sr : BFState × Nat) (i : Nat) :
    (getB (BF_Accum false W y x sr).arena i).Expire = (getB sr.1.arena i).Expire := by
  show (getB (sr.1.arena.set sr.2 (Add_Position (getB sr.1.arena sr.2) x y)) i).Expire = _
  by_cases hij : i = sr.2
  · by_cases hb : sr.2 < sr.1.arena.length
    · rw [hij, getB_set_self _ _ _ hb, add_position_expire]
    · rw [List.set_eq_of_length_le (Nat.le_of_not_lt hb)]
  · rw [getB_set_ne _ _ _ _ hij]

lemma join_stub_expire (W y x : Nat) (s1 : BFState) (hwf1 : WFinv W s1)
    (hcroot : ∀ c, s1.cols.getD x none = some c → FPof s1.arena c = none)
    (i : Nat) (hold : FPof s1.arena i = none)
    (hnew : FPof (BF_Join false y x s1).1.arena i ≠ none) :
    (getB (BF_Join false y x s1).1.arena i).Expire = (y : Int) + 1 := by
  obtain ⟨hcols, hW1, hg, hcolb, hrowb, hact⟩ := hwf1
  revert hnew
  unfold BF_Join
  cases hr : s1.row with
  | some r =>
    cases hc : s1.cols.getD x none with
    | some c =>
      dsimp only
      intro hnew
      have hrlen := (hrowb r hr).1
      have hrroot := (hrowb r hr).2
      have hclen := hcolb x c hc
      by_cases hcr : c = r
      · exfalso
        rw [show Merge_Blobs s1.arena c r (if (false : Bool) then 0 else (y : Int) + 1) =
          s1.arena from by unfold Merge_Blobs; rw [if_pos hcr]] at hnew
        exact hnew hold
      · have hEval : (if (false : Bool) then (0 : Int) else (y : Int) + 1) =
            (y : Int) + 1 := rfl
        rw [hEval] at hnew ⊢
        have hfp := merge_fpof s1.arena c r ((y : Int) + 1) hclen hrlen hcr
        have hexp := merge_expire_of s1.arena c r ((y : Int) + 1) hclen hrlen hcr
        rw [hfp i] at hnew
        by_cases hic : i = c
        · rw [hexp i, if_pos hic]
        · rw [if_neg hic] at hnew
          exact absurd hold hnew
    | none =>
      dsimp only
      intro hnew
      exact absurd hold hnew
  | none =>
    cases hc : s1.cols.getD x none with
    | some c =>
      dsimp only
      intro hnew
      exact absurd hold hnew
    | none =>
      dsimp only
      intro hnew
      rw [FPof_append] at hnew
      exact absurd hold hnew

lemma pixel_stub_expire (dm : Nat → Int) (W : Nat) (Bth : Int) (y x : Nat) (s : BFState)
    (hwf : WFinv W s) (i : Nat)
    (hold : FPof s.arena i = none)
    (hnew : FPof (BF_Pixel false dm W Bth y x s).arena i ≠ none) :
    (getB (BF_Pixel false dm W Bth y x s).arena i).Expire = (y : Int) + 1 := by
  obtain ⟨hwf1, harena, -, -, hcroot⟩ := WFinv_reduce_col W x s hwf
  have hold1 : FPof (BF_Reduce_Col x s).arena i = none := by rw [harena]; exact hold
  have hcroot1 : ∀ c, (BF_Reduce_Col x s).cols.getD x none = some c →
      FPof (BF_Reduce_Col x s).arena c = none := by
    intro c hc
    rw [harena]
    exact hcroot c hc
  revert hnew
  unfold BF_Pixel
  split
  · intro hnew
    rw [accum_fpof] at hnew
    rw [accum_expire W y x (BF_Join false y x (BF_Reduce_Col x s)) i]
    exact join_stub_expire W y x _ hwf1 hcroot1 i hold1 hnew
  · intro hnew
    exact absurd
      (show FPof (BF_Clear false W y x (BF_Reduce_Col x s)).arena i = none from hold1)
      hnew

/-- Claim C2: in Blob_Finder (the plain scan), a blob that becomes a
forwarding stub while row y is processed has its Expire field set to y+1;
the reap run after each row removes from the active list exactly the blobs
whose Expire equals the index of the row just finished; and in every state
the scan reaches, every node on the forwarding chain hanging off any column
reference is still on the active list, so resolving a stale column
reference through the chain never touches a reclaimed blob. -/
theorem blob_finder_stub_expire_reap_exact_and_safe :
    (∀ (dm : Nat → Int) (W : Nat) (Bth : Int) (y x i : Nat),
      FPof (BF_StateAt false dm W Bth y x).arena i = none →
      FPof (BF_StateAt false dm W Bth y (x + 1)).arena i ≠ none →
      (getB (BF_StateAt false dm W Bth y (x + 1)).arena i).Expire = (y : Int) + 1) ∧
    (∀ (dm : Nat → Int) (W : Nat) (Bth : Int) (y : Nat),
      (List.range (y + 1)).foldl (BF_Row false dm W Bth) (BF_Init W) =
        { BF_StateAt false dm W Bth y W with
          act := Reap_Expired_Blobs (BF_StateAt false dm W Bth y W).arena (y : Int)
            (BF_StateAt false dm W Bth y W).act } ∧
      (∀ i, i ∈ ((List.range (y + 1)).foldl (BF_Row false dm W Bth) (BF_Init W)).act ↔
        (i ∈ (BF_StateAt false dm W Bth y W).act ∧
         (getB (BF_StateAt false dm W Bth y W).arena i).Expire ≠ (y : Int)))) ∧
    (∀ (dm : Nat → Int) (W : Nat) (Bth : Int) (ys x x' c : Nat),
      (BF_StateAt false dm W Bth ys x).cols.getD x' none = some c →
      ∀ n, Reduce_FP (BF_StateAt false dm W Bth ys x).arena n c ∈
        (BF_StateAt false dm W Bth ys x).act) := by
  refine ⟨?_, ?_, ?_⟩
  · intro dm W Bth y x i hold hnew
    rw [stateAt_succ_x] at hnew ⊢
    exact pixel_stub_expire dm W Bth y x _ (WFinv_stateAt false dm W Bth y x) i hold hnew
  · intro dm W Bth y
    have heq : (List.range (y + 1)).foldl (BF_Row false dm W Bth) (BF_Init W) =
        { BF_StateAt false dm W Bth y W with
          act := Reap_Expired_Blobs (BF_StateAt false dm W Bth y W).arena (y : Int)
            (BF_StateAt false dm W Bth y W).act } := by
      rw [rows_fold_succ]
      rfl
    refine ⟨heq, ?_⟩
    intro i
    rw [heq]
    exact mem_reap_expired _ _ _ i
  · intro dm W Bth ys x x' c hc n
    obtain ⟨hwf, hS1, hS2, hCH⟩ := safe_stateAt dm W Bth ys x
    exact (hCH x' c hc _ (reduce_mem_reach _ n c)).1

theorem blob_finder_stub_expire_reap_exact_and_safe_witness :
    (getB (BF_StateAt false (dmOf [1, 0, 1, 1, 1, 1]) 3 1 1 3).arena 1).Expire =
      (1 : Int) + 1 ∧
    Reduce_FP (BF_StateAt false (dmOf [1, 0, 1, 1, 1, 1]) 3 1 1 3).arena 1 0 ∈
      (BF_StateAt false (dmOf [1, 0, 1, 1, 1, 1]) 3 1 1 3).act :=
  ⟨blob_finder_stub_expire_reap_exact_and_safe.1 (dmOf [1, 0, 1, 1, 1, 1]) 3 1 1 2 1
      (by decide) (by decide),
   blob_finder_stub_expire_reap_exact_and_safe.2.2 (dmOf [1, 0, 1, 1, 1, 1]) 3 1 1 3 2 0
      (by decide) 1⟩

lemma merge_getB_i2 (A : List BlobR) (i1 i2 : Nat) (e : Int)
    (h2 : i2 < A.length) (hne : i1 ≠ i2) :
    getB (Merge_Blobs A i1 i2 e) i2 = Merge_Vals (getB A i1) (getB A i2) := by
  unfold Merge_Blobs
  rw [if_neg hne]
  rw [getB_set_ne _ i1 i2 _ (fun h => hne h.symm), getB_set_self A i2 _ h2]

/-- The density map with two blob-worthy runs born in row 0 (cells {0,1}
and {3,4}) that touch through the fully worthy row 1. -/
def dmTouch : Nat → Int := dmOf [1, 1, 0, 1, 1,  1, 1, 1, 1, 1]

lemma merge_vals_xmin (b1 b2 : BlobR) : (Merge_Vals b1 b2).Xmin = min b1.Xmin b2.Xmin := by
  unfold Merge_Vals
  simp only [apply_ite BlobR.Xmax, apply_ite BlobR.Xmin, apply_ite BlobR.Ymin,
    apply_ite BlobR.Ymax]
  split_ifs <;> omega

lemma merge_vals_xmax (b1 b2 : BlobR) : (Merge_Vals b1 b2).Xmax = max b1.Xmax b2.Xmax := by
  unfold Merge_Vals
  simp only [apply_ite BlobR.Xmax, apply_ite BlobR.Xmin, apply_ite BlobR.Ymin,
    apply_ite BlobR.Ymax]
  split_ifs <;> omega

lemma merge_vals_ymin (b1 b2 : BlobR) : (Merge_Vals b1 b2).Ymin = min b1.Ymin b2.Ymin := by
  unfold Merge_Vals
  simp only [apply_ite BlobR.Xmax, apply_ite BlobR.Xmin, apply_ite BlobR.Ymin,
    apply_ite BlobR.Ymax]
  split_ifs <;> omega

lemma merge_vals_ymax (b1 b2 : BlobR) : (Merge_Vals b1 b2).Ymax = max b1.Ymax b2.Ymax := by
  unfold Merge_Vals
  simp only [apply_ite BlobR.Xmax, apply_ite BlobR.Xmin, apply_ite BlobR.Ymin,
    apply_ite BlobR.Ymax]
  split_ifs <;> omega

lemma merge_vals_count (b1 b2 : BlobR) : (Merge_Vals b1 b2).Count = b2.Count + b1.Count := by
  unfold Merge_Vals
  simp only [apply_ite BlobR.Count]
  split_ifs <;> omega

lemma merge_vals_xsum (b1 b2 : BlobR) : (Merge_Vals b1 b2).Xsum = b2.Xsum + b1.Xsum := by
  unfold Merge_Vals
  simp only [apply_ite BlobR.Xsum]
  split_ifs <;> omega

lemma merge_vals_ysum (b1 b2 : BlobR) : (Merge_Vals b1 b2).Ysum = b2.Ysum + b1.Ysum := by
  unfold Merge_Vals
  simp only [apply_ite BlobR.Ysum]
  split_ifs <;> omega

/-- Claim C7: whenever a worthy pixel joins two previously separate blobs —
the resolved column blob c and the current row blob r — the absorbed blob c
becomes a forwarding stub to r and the surviving blob r takes exactly the
value Add_Position (Merge_Vals c r) x y, where Merge_Vals forms the
component-wise union of the two bounding boxes and the sums of the Counts
and centre-of-mass accumulators; a forwarded (merged-away) blob index never
survives the final reap, every blob Blob_Finder returns carries no
forwarding reference, and on the map with two row-0 runs bridged by row 1
the finder returns the single merged blob covering both runs. -/
theorem blob_merge_union_and_no_stub_returned :
    (∀ (b1 b2 : BlobR),
      (Merge_Vals b1 b2).Xmin = min b1.Xmin b2.Xmin ∧
      (Merge_Vals b1 b2).Xmax = max b1.Xmax b2.Xmax ∧
      (Merge_Vals b1 b2).Ymin = min b1.Ymin b2.Ymin ∧
      (Merge_Vals b1 b2).Ymax = max b1.Ymax b2.Ymax ∧
      (Merge_Vals b1 b2).Count = b2.Count + b1.Count ∧
      (Merge_Vals b1 b2).Xsum = b2.Xsum + b1.Xsum ∧
      (Merge_Vals b1 b2).Ysum = b2.Ysum + b1.Ysum) ∧
    (∀ (dm : Nat → Int) (W : Nat) (Bth : Int) (y x r c : Nat),
      Bth ≤ dm (y * W + x) →
      (BF_Reduce_Col x (BF_StateAt false dm W Bth y x)).row = some r →
      (BF_Reduce_Col x (BF_StateAt false dm W Bth y x)).cols.getD x none = some c →
      c ≠ r →
      FPof (BF_StateAt false dm W Bth y (x + 1)).arena c = some r ∧
      getB (BF_StateAt false dm W Bth y (x + 1)).arena r =
        Add_Position
          (Merge_Vals (getB (BF_Reduce_Col x (BF_StateAt false dm W Bth y x)).arena c)
            (getB (BF_Reduce_Col x (BF_StateAt false dm W Bth y x)).arena r)) x y) ∧
    (∀ (dm : Nat → Int) (W H : Nat) (Bth : Int) (i : Nat),
      i ∈ Reap_FP_Blobs (BF_Scan false dm W H Bth).arena (BF_Scan false dm W H Bth).act →
      FPof (BF_Scan false dm W H Bth).arena i = none) ∧
    (∀ (dm : Nat → Int) (W H : Nat) (Bth : Int) (b : BlobR),
      b ∈ Blob_Finder dm W H Bth → b.FP = none) ∧
    (Blob_Finder dmTouch 5 2 1).map
      (fun b => (b.Xmin, b.Xmax, b.Ymin, b.Ymax, b.Count, b.ID)) =
      [(0, 4, 0, 1, 9, 1)] := by
  refine ⟨?_, ?_, ?_, ?_, ?_⟩
  · intro b1 b2
    exact ⟨merge_vals_xmin b1 b2, merge_vals_xmax b1 b2, merge_vals_ymin b1 b2,
      merge_vals_ymax b1 b2, merge_vals_count b1 b2, merge_vals_xsum b1 b2,
      merge_vals_ysum b1 b2⟩
  · intro dm W Bth y x r c hworthy hrow hcol hne
    have hwfP := WFinv_stateAt false dm W Bth y x
    have hwf1 := (WFinv_reduce_col W x (BF_StateAt false dm W Bth y x) hwfP).1
    have hrlen := (hwf1.2.2.2.2.1 r hrow).1
    have hclen := hwf1.2.2.2.1 x c hcol
    have hpix : BF_Pixel false dm W Bth y x (BF_StateAt false dm W Bth y x) =
        BF_Accum false W y x
          (BF_Join false y x (BF_Reduce_Col x (BF_StateAt false dm W Bth y x))) := by
      unfold BF_Pixel
      dsimp only
      rw [if_pos hworthy]
    have hjoin : BF_Join false y x (BF_Reduce_Col x (BF_StateAt false dm W Bth y x)) =
        ({ arena := Merge_Blobs (BF_Reduce_Col x (BF_StateAt false dm W Bth y x)).arena
             c r ((y : Int) + 1),
           act := (BF_Reduce_Col x (BF_StateAt false dm W Bth y x)).act,
           cols := (BF_Reduce_Col x (BF_StateAt false dm W Bth y x)).cols,
           row := some r,
           bmap := (BF_Reduce_Col x (BF_StateAt false dm W Bth y x)).bmap }, r) := by
      unfold BF_Join
      rw [hrow, hcol]
      rfl
    constructor
    · rw [stateAt_succ_x, hpix, hjoin]
      rw [show ∀ sr : BFState × Nat, FPof (BF_Accum false W y x sr).arena c =
          FPof sr.1.arena c from fun sr => accum_fpof W y x sr c]
      rw [merge_fpof _ c r _ hclen hrlen hne c, if_pos rfl]
    · rw [stateAt_succ_x, hpix, hjoin]
      show getB ((Merge_Blobs (BF_Reduce_Col x (BF_StateAt false dm W Bth y x)).arena
          c r ((y : Int) + 1)).set r
            (Add_Position (getB (Merge_Blobs
              (BF_Reduce_Col x (BF_StateAt false dm W Bth y x)).arena
              c r ((y : Int) + 1)) r) x y)) r = _
      rw [getB_set_self _ r _ (by rw [merge_length]; exact hrlen)]
      rw [merge_getB_i2 _ c r _ hrlen hne]
  · intro dm W H Bth i hi
    exact ((mem_reap_fp _ _ i).mp hi).2
  · intro dm W H Bth b hb
    unfold Blob_Finder at hb
    simp only [List.mem_map] at hb
    obtain ⟨i, hi, rfl⟩ := hb
    have hroot := ((mem_reap_fp _ _ i).mp hi).2
    show FPof (Number_Blobs _ _) i = none
    rw [number_blobs_fpof]
    exact hroot
  · set_option maxRecDepth 10000 in decide

theorem blob_merge_union_and_no_stub_returned_witness :
    FPof (BF_StateAt false dmTouch 5 1 1 (3 + 1)).arena 1 = some 0 ∧
    getB (BF_StateAt false dmTouch 5 1 1 (3 + 1)).arena 0 =
      Add_Position
        (Merge_Vals (getB (BF_Reduce_Col 3 (BF_StateAt false dmTouch 5 1 1 3)).arena 1)
          (getB (BF_Reduce_Col 3 (BF_StateAt false dmTouch 5 1 1 3)).arena 0)) 3 1 :=
  blob_merge_union_and_no_stub_returned.2.1 dmTouch 5 1 1 3 0 1 (by decide) (by decide)
    (by decide) (by decide)
